import Mathlib

/-!
Verification development for the Foundation-building core of a tight-binding
lattice library (`cppcore/src/system/Foundation.cpp`).

The pure geometry/graph content of the C++ code is embedded shallowly:
* machine `int` / `int16_t` arithmetic is modelled by `Int` (no overflow occurs
  in the modelled value ranges, except where a claim is explicitly about the
  `INT_MAX`/`INT_MIN` sentinels, which are modelled as the exact constants);
* `float` Cartesian arithmetic is modelled by exact `Rat` arithmetic with the
  same association order as the source;
* the Eigen QR solve used by `find_bounds` is kept abstract as a `solve`
  parameter, since its numerics are external to this core;
* `Eigen` arrays become `List`s indexed by the flat site index.

Structures that live in headers outside the translated file (`Lattice`,
`Shape`, `Foundation`'s fields, the `Site` neighbour iteration) are modelled
from the specification document, as noted on each definition.
-/

namespace Tbm

/-- A Cartesian vector (the source's `Cartesian`, a 3-component float vector),
modelled with exact rational components. -/
structure V3 where
  x : ℚ
  y : ℚ
  z : ℚ
deriving DecidableEq, Repr

instance : Add V3 := ⟨fun u v => ⟨u.x + v.x, u.y + v.y, u.z + v.z⟩⟩

/-- Scalar multiple of a Cartesian vector. -/
def smulV (q : ℚ) (v : V3) : V3 := ⟨q * v.x, q * v.y, q * v.z⟩

/-- The zero Cartesian vector. -/
def v0 : V3 := ⟨0, 0, 0⟩

theorem V3.add_comp (u v : V3) : u + v = ⟨u.x + v.x, u.y + v.y, u.z + v.z⟩ := rfl

/-- An integer 3D cell index (the source's `Index3D` / `Array3i`). -/
structure I3 where
  a : ℤ
  b : ℤ
  c : ℤ
deriving DecidableEq, Repr

instance : Add I3 := ⟨fun u v => ⟨u.a + v.a, u.b + v.b, u.c + v.c⟩⟩
instance : Sub I3 := ⟨fun u v => ⟨u.a - v.a, u.b - v.b, u.c - v.c⟩⟩

/-- The `Index3D::Ones()` constant. -/
def onesI3 : I3 := ⟨1, 1, 1⟩

/-- Component access for an `I3`, component `k ∈ {0, 1, 2}`. -/
def I3.comp (v : I3) (k : ℕ) : ℤ :=
  if k = 0 then v.a else if k = 1 then v.b else v.c

/-- Component access for a `V3`. -/
def V3.comp (v : V3) (k : ℕ) : ℚ :=
  if k = 0 then v.x else if k = 1 then v.y else v.z

/-- Modelled from the spec: a hopping rule (`Lattice` lives outside the
translated source file). Each rule has a relative 3D lattice-index offset
`relative_index` and a target sublattice. -/
structure Hopping where
  relative_index : I3
  to_sub : ℕ
deriving DecidableEq, Repr

/-- Modelled from the spec: a sublattice, with a Cartesian offset and a list
of hopping rules. -/
structure Sublattice where
  offset : V3
  hoppings : List Hopping
deriving DecidableEq, Repr

/-- Modelled from the spec: a lattice, with up to 3 basis vectors, a sequence
of sublattices, and the `min_neighbours` validity threshold. -/
structure Lattice where
  vectors : List V3
  sublattices : List Sublattice
  min_neighbours : ℤ
deriving DecidableEq, Repr

/-- Modelled from the spec: a shape, with an offset, representative boundary
vertices, and a per-position containment predicate (the source's batch
`contains(positions)` applied pointwise). -/
structure Shape where
  offset : V3
  vertices : List V3
  contains : V3 → Bool

/-- `INT_MAX`, the `std::numeric_limits<int>::max()` sentinel. -/
def intMax : ℤ := 2147483647

/-- `INT_MIN`, the `std::numeric_limits<int>::min()` sentinel. -/
def intMin : ℤ := -2147483648

/-- Truncation toward zero, the semantics of Eigen's `cast<int>()` on a float
value (modelled on exact rationals). -/
def ratTrunc (q : ℚ) : ℤ := Int.tdiv q.num (q.den : ℤ)

/-- The integer lattice-coordinate vector `v` computed for one shape vertex in
`find_bounds`: `Array3i::Zero()` with `v.head(ndim)` set to the truncated
solve result. `solve` abstracts `lattice_matrix.colPivHouseholderQr().solve`
(it receives the lattice basis vectors and the vertex). -/
def boundVec (solve : List V3 → V3 → V3) (vecs : List V3) (p : V3) (k : ℕ) : ℤ :=
  if k < vecs.length then ratTrunc ((solve vecs p).comp k) else 0

/-- Componentwise minimum of an `I3` with a componentwise-given candidate:
the source's `(v < lower).select(v, lower)`. -/
def selMin (v w : I3) : I3 := ⟨min v.a w.a, min v.b w.b, min v.c w.c⟩

/-- Componentwise maximum: the source's `(v > upper).select(v, upper)`. -/
def selMax (v w : I3) : I3 := ⟨max v.a w.a, max v.b w.b, max v.c w.c⟩

/-- Build the `I3` whose component `k` is `boundVec … k`. -/
def boundVecI3 (solve : List V3 → V3 → V3) (vecs : List V3) (p : V3) : I3 :=
  ⟨boundVec solve vecs p 0, boundVec solve vecs p 1, boundVec solve vecs p 2⟩

/-- Subtract 1 from the first `ndim` components (`lower_bound.head(ndim) -= 1`). -/
def padLower (v : I3) (ndim : ℕ) : I3 :=
  ⟨if 0 < ndim then v.a - 1 else v.a,
   if 1 < ndim then v.b - 1 else v.b,
   if 2 < ndim then v.c - 1 else v.c⟩

/-- Add 1 to the first `ndim` components (`upper_bound.head(ndim) += 1`). -/
def padUpper (v : I3) (ndim : ℕ) : I3 :=
  ⟨if 0 < ndim then v.a + 1 else v.a,
   if 1 < ndim then v.b + 1 else v.b,
   if 2 < ndim then v.c + 1 else v.c⟩

/-- `detail::find_bounds`: fold the componentwise min/max of the truncated
lattice-coordinate solutions over all shape vertices, starting from the
`INT_MAX`/`INT_MIN` sentinels, then pad the first `ndim` components by ∓1. -/
def find_bounds (solve : List V3 → V3 → V3) (shape : Shape) (lattice : Lattice) :
    I3 × I3 :=
  let ndim := lattice.vectors.length
  let start : I3 × I3 :=
    (⟨intMax, intMax, intMax⟩, ⟨intMin, intMin, intMin⟩)
  let folded := shape.vertices.foldl
    (fun bd p =>
      let v := boundVecI3 solve lattice.vectors p
      (selMin v bd.1, selMax v bd.2))
    start
  (padLower folded.1 ndim, padUpper folded.2 ndim)

/-- The `b == 0 ? pa : pa + b * vec1` incremental step of `generate_positions`
(in exact arithmetic it always equals `pa + b • vec`). -/
def stepPos (pa : V3) (k : ℕ) (vec : V3) : V3 :=
  if k = 0 then pa else pa + smulV (k : ℚ) vec

/-- `lattice.vectors[i]`, defaulting to zero outside range (the source never
reads out of range because loop bounds come from `size`, whose unused
dimensions are 1). -/
def latVec (lattice : Lattice) (i : ℕ) : V3 := lattice.vectors.getD i v0

/-- `detail::generate_positions`: the four nested loops, `a` outermost then
`b`, `c`, and sublattices innermost, appending one Cartesian position per
site in flat-index order. -/
def generate_positions (origin : V3) (size : I3) (lattice : Lattice) : List V3 :=
  (List.range size.a.toNat).flatMap fun a =>
    let pa := origin + smulV (a : ℚ) (latVec lattice 0)
    (List.range size.b.toNat).flatMap fun b =>
      let pb := stepPos pa b (latVec lattice 1)
      (List.range size.c.toNat).flatMap fun c =>
        let pc := stepPos pb c (latVec lattice 2)
        lattice.sublattices.map fun sub => pc + sub.offset

/-- Modelled from the spec: the `Foundation` record (its field layout lives in
`Foundation.hpp`): owning lattice, box `size`, number of sublattices `size_n`,
`num_sites = size.prod() * size_n`, the flat position array and the flat
validity array. -/
structure Foundation where
  lattice : Lattice
  size : I3
  size_n : ℤ
  num_sites : ℤ
  positions : List V3
  is_valid : List Bool

/-- The number of sites as a natural number (flat arrays are indexed by `ℕ`). -/
def numSitesNat (f : Foundation) : ℕ :=
  (f.size.a.toNat * (f.size.b.toNat * (f.size.c.toNat * f.lattice.sublattices.length)))

/-- Decode a flat site index into its `(a, b, c, sublattice)` components,
inverting the fixed flat-index bijection
`flat = ((a*size.b + b)*size.c + c)*size_n + sublattice`. -/
def decodeSub (f : Foundation) (i : ℕ) : ℕ := i % f.lattice.sublattices.length

/-- The `c` cell coordinate of flat index `i`. -/
def decodeC (f : Foundation) (i : ℕ) : ℕ :=
  (i / f.lattice.sublattices.length) % f.size.c.toNat

/-- The `b` cell coordinate of flat index `i`. -/
def decodeB (f : Foundation) (i : ℕ) : ℕ :=
  (i / (f.lattice.sublattices.length * f.size.c.toNat)) % f.size.b.toNat

/-- The `a` cell coordinate of flat index `i`. -/
def decodeA (f : Foundation) (i : ℕ) : ℕ :=
  i / (f.lattice.sublattices.length * (f.size.c.toNat * f.size.b.toNat))

/-- The 3D cell index of flat site `i` (the source's `site.get_index()`). -/
def siteIndex (f : Foundation) (i : ℕ) : I3 :=
  ⟨(decodeA f i : ℤ), (decodeB f i : ℤ), (decodeC f i : ℤ)⟩

/-- Whether a 3D cell index lies inside `[0, size)` on every axis: the
source's `!(any_of(index < 0) || any_of(index >= foundation.size.array()))`. -/
def inBox (size : I3) (v : I3) : Bool :=
  decide (0 ≤ v.a ∧ v.a < size.a ∧ 0 ≤ v.b ∧ v.b < size.b ∧ 0 ≤ v.c ∧ v.c < size.c)

/-- Re-encode a 3D cell index and sublattice into a flat index, for an index
already known to be in-box (all components nonnegative). -/
def encodeFlat (f : Foundation) (v : I3) (sub : ℕ) : ℕ :=
  ((v.a.toNat * f.size.b.toNat + v.b.toNat) * f.size.c.toNat + v.c.toNat) *
    f.lattice.sublattices.length + sub

/-- The sublattice record of flat site `i`. -/
def siteSublattice (f : Foundation) (i : ℕ) : Sublattice :=
  f.lattice.sublattices.getD (decodeSub f i) ⟨v0, []⟩

/-- Modelled from the spec: the `Site::for_each_neighbour` enumeration
(declared in `Foundation.hpp`): for each hopping rule of the site's
sublattice, the neighbour lives at 3D index `site.get_index() +
hopping.relative_index` in sublattice `hopping.to_sub`; targets outside
`[0, size)` are "no such neighbour" and are skipped. Returns the flat indices
of the existing (in-box) neighbours, one entry per hopping rule. -/
def nbrsF (f : Foundation) (i : ℕ) : List ℕ :=
  (siteSublattice f i).hoppings.filterMap fun h =>
    let target := siteIndex f i + h.relative_index
    if inBox f.size target then some (encodeFlat f target h.to_sub) else none

/-- `detail::count_neighbors`: per site, start from the number of hopping
rules of its sublattice and subtract 1 for each rule whose target falls
outside the box. Produces the flat `neighbor_count` array (`int16_t`,
modelled as `ℤ`). -/
def count_neighbors (f : Foundation) : List ℤ :=
  (List.range (numSitesNat f)).map fun i =>
    (siteSublattice f i).hoppings.foldl
      (fun acc h =>
        if inBox f.size (siteIndex f i + h.relative_index) then acc else acc - 1)
      ((siteSublattice f i).hoppings.length : ℤ)

/-- The mutable state of the trimming pass: the per-site validity flags and
the scratch `neighbor_count` array. -/
structure St where
  valid : List Bool
  cnt : List ℤ
deriving DecidableEq, Repr

/-- Read a validity flag (`site.is_valid()`); out-of-range reads do not occur
during the modelled passes. -/
def gv (st : St) (i : ℕ) : Bool := st.valid.getD i true

/-- Read a neighbour count. -/
def gc (st : St) (i : ℕ) : ℤ := st.cnt.getD i 0

/-- Decrement a neighbour count (`neighbor_count[neighbor_idx] -= 1`). -/
def decc (st : St) (j : ℕ) : St := { st with cnt := st.cnt.set j (gc st j - 1) }

/-- Invalidate a site (`neighbor.set_valid(false)`). -/
def invd (st : St) (j : ℕ) : St := { st with valid := st.valid.set j false }

/-- Zero a site's own count (`neighbor_count[site.get_idx()] = 0`). -/
def zeroc (st : St) (s : ℕ) : St := { st with cnt := st.cnt.set s 0 }

/-- The number of `true` validity flags; every recursive `clear_neighbors`
call is preceded by an invalidation, so this bounds the recursion depth. -/
def numValid (st : St) : ℕ := st.valid.countP (fun b => b)

/-- `detail::clear_neighbors` over an abstract neighbour map `nbrs` and
threshold `minN`: if the site's own count is zero, return; otherwise visit
each existing neighbour in order — skip it if it is invalid, else decrement
its count, and when the count drops strictly below `minN`, invalidate it and
recurse — and finally zero the site's own count.  The C++ recursion has no
fuel; it terminates because every nested call follows an invalidation, so any
`fuel > numValid st` makes the model agree with it
(`clearN_fuel_irrelevant` below discharges the fuel artefact). -/
def clearN (nbrs : ℕ → List ℕ) (minN : ℤ) : ℕ → ℕ → St → St
  | 0, _, st => st
  | fuel + 1, s, st =>
    if gc st s = 0 then st
    else
      zeroc
        ((nbrs s).foldl
          (fun acc j =>
            if gv acc j = false then acc
            else
              let acc1 := decc acc j
              if gc acc1 j < minN then clearN nbrs minN fuel j (invd acc1 j)
              else acc1)
          st)
        s

/-- The `trim_edges` driver loop over an explicit visiting order `ord` (the
source uses flat-index order, i.e. `ord = List.range n`): invoke
`clear_neighbors` on every site that is invalid when visited. -/
def trimOrd (nbrs : ℕ → List ℕ) (minN : ℤ) (ord : List ℕ) (st : St) : St :=
  ord.foldl
    (fun acc i =>
      if gv acc i = false then clearN nbrs minN (numValid acc + 1) i acc else acc)
    st

/-- `detail::trim_edges`: compute the structural neighbour counts once, then
sweep all sites in flat-index order, clearing the neighbours of every
currently-invalid site.  Only `is_valid` is updated on the foundation; the
count array is local scratch. -/
def trim_edges (f : Foundation) : Foundation :=
  { f with is_valid :=
      (trimOrd (nbrsF f) f.lattice.min_neighbours (List.range (numSitesNat f))
        ⟨f.is_valid, count_neighbors f⟩).valid }

/-- The shape-based `Foundation` constructor before its final `trim_edges`
call: bounds, size, origin, generated positions, and shape containment. -/
def foundationPre (solve : List V3 → V3 → V3) (lattice : Lattice) (shape : Shape) :
    Foundation :=
  let bounds := find_bounds solve shape lattice
  let size := (bounds.2 - bounds.1) + onesI3
  let size_n := (lattice.sublattices.length : ℤ)
  let origin := (List.range lattice.vectors.length).foldl
    (fun p i => p + smulV ((bounds.1.comp i : ℤ) : ℚ) (latVec lattice i))
    shape.offset
  let positions := generate_positions origin size lattice
  { lattice := lattice
    size := size
    size_n := size_n
    num_sites := size.a * size.b * size.c * size_n
    positions := positions
    is_valid := positions.map shape.contains }

/-- `Foundation::Foundation(Lattice const&, Shape const&)`: build the
pre-foundation and run the edge-trimming pass. -/
def foundationFromShape (solve : List V3 → V3 → V3) (lattice : Lattice)
    (shape : Shape) : Foundation :=
  trim_edges (foundationPre solve lattice shape)

/-- The number of in-box neighbours of site `i` that are valid in `f`,
re-derived directly from the hopping rules and the `is_valid` array. -/
def validNbrCount (f : Foundation) (i : ℕ) : ℕ :=
  (nbrsF f i).countP fun j => f.is_valid.getD j true

/-- `HamiltonianIndices::HamiltonianIndices`: indices start at `-1`
everywhere; a single ascending flat-index pass assigns `num_valid_sites++` to
every valid site. -/
def hamiltonianIndices (f : Foundation) : List ℤ × ℤ :=
  (List.range (numSitesNat f)).foldl
    (fun acc i =>
      if f.is_valid.getD i true then (acc.1.set i acc.2, acc.2 + 1) else acc)
    (List.replicate (numSitesNat f) (-1), 0)

/-! ### Generic machinery for reasoning about the trimming pass

The trimming pass is analysed over an abstract neighbour map
`nbrs : ℕ → List ℕ` on `n` sites (instantiated with `nbrsF f`).  The ghost
context `Γ` records, for every `clear_neighbors` activation currently on the
call stack, the suffix of its neighbour list still to be processed; the
accounting sum `Dsum` reconstructs from the state and `Γ` how many decrements
each still-valid site has absorbed. -/

/-- Number of `true` entries of a `Bool` list. -/
def countTrue (l : List Bool) : ℕ := l.countP (fun b => b)

/-- A ghost stack: for each site, optionally the unprocessed suffix of its
neighbour list. -/
def Ghost : Type := ℕ → Option (List ℕ)

/-- The empty ghost stack. -/
def emptyG : Ghost := fun _ => none

/-- Update a ghost stack at one site. -/
def updG (Γ : Ghost) (s : ℕ) (v : Option (List ℕ)) : Ghost :=
  fun x => if x = s then v else Γ x

/-- Structural degree of a site: its number of in-box neighbours (counting
hopping-rule multiplicity). -/
def degN (nbrs : ℕ → List ℕ) (j : ℕ) : ℕ := (nbrs j).length

/-- How many decrements site `j` is accounted to have applied to site `i`:
a completed activation (invalid with count 0) has applied one per occurrence
of `i` in `nbrs j`; an active activation has applied one per occurrence in
its already-processed prefix; every other site has applied none. -/
def contrib (nbrs : ℕ → List ℕ) (st : St) (Γ : Ghost) (j i : ℕ) : ℕ :=
  match Γ j with
  | some rem => (nbrs j).count i - rem.count i
  | none => if gv st j = false ∧ gc st j = 0 then (nbrs j).count i else 0

/-- Total decrements absorbed by site `i` so far, per the accounting. -/
def Dsum (n : ℕ) (nbrs : ℕ → List ℕ) (st : St) (Γ : Ghost) (i : ℕ) : ℕ :=
  ∑ j in Finset.range n, contrib nbrs st Γ j i

/-- The execution invariant of the trimming pass: lengths are fixed, ghost
entries describe invalid sites with genuine suffixes, every valid site's
stored count equals its structural degree minus the absorbed decrements, and
a valid site's count is below `minN` only if it has absorbed none. -/
structure TrimInv (n : ℕ) (nbrs : ℕ → List ℕ) (minN : ℤ) (st : St) (Γ : Ghost) :
    Prop where
  lenv : st.valid.length = n
  lenc : st.cnt.length = n
  gok : ∀ j rem, Γ j = some rem → j < n ∧ gv st j = false ∧ rem.IsSuffix (nbrs j)
  q2 : ∀ i, i < n → gv st i = true →
    gc st i = (degN nbrs i : ℤ) - (Dsum n nbrs st Γ i : ℤ)
  q3 : ∀ i, i < n → gv st i = true →
    minN ≤ gc st i ∨ Dsum n nbrs st Γ i = 0

/-- All neighbour targets stay below `n` (holds for any foundation whose
lattice sends `to_sub` into range, since in-box targets re-encode into the
box). -/
def NbrsRange (n : ℕ) (nbrs : ℕ → List ℕ) : Prop :=
  ∀ i ∈ List.range n, ∀ j ∈ nbrs i, j < n

/-- The neighbour relation is symmetric with multiplicity: site `j` occurs in
`nbrs i` as often as `i` occurs in `nbrs j`.  Real lattices satisfy this
because `Lattice::add_hopping` registers each hopping rule together with its
inverse (spec scenarios: "hopping rule connecting to relative index ±1"). -/
def NbrsSym (n : ℕ) (nbrs : ℕ → List ℕ) : Prop :=
  ∀ i ∈ List.range n, ∀ j ∈ List.range n, (nbrs i).count j = (nbrs j).count i

/-- A set of sites `W` is trim-stable when every member either has at least
`minN` neighbours inside `W` or has all its neighbours inside `W`. -/
def StableW (n : ℕ) (nbrs : ℕ → List ℕ) (minN : ℤ) (W : ℕ → Bool) : Prop :=
  ∀ i ∈ List.range n, W i = true →
    minN ≤ ((nbrs i).countP W : ℤ) ∨ ∀ m ∈ nbrs i, W m = true

/-- Number of valid sites with flat index strictly below `k`. -/
def countValidUpTo (f : Foundation) (k : ℕ) : ℕ :=
  (List.range k).countP fun i => f.is_valid.getD i true

/-- Sum of a list of Cartesian vectors (used to state the origin formula of
the shape constructor). -/
def sumV (l : List V3) : V3 := l.foldr (· + ·) v0

/-! ### Concrete instances used by witnesses and counterexamples -/

/-- A 1D chain lattice with unit basis vector, one sublattice, symmetric
nearest-neighbour hopping rules, and `min_neighbours = 2`. -/
def latChain2 : Lattice :=
  ⟨[⟨1, 0, 0⟩], [⟨v0, [⟨⟨1, 0, 0⟩, 0⟩, ⟨⟨-1, 0, 0⟩, 0⟩]⟩], 2⟩

/-- The same chain lattice with `min_neighbours = 1`. -/
def latChain1 : Lattice :=
  ⟨[⟨1, 0, 0⟩], [⟨v0, [⟨⟨1, 0, 0⟩, 0⟩, ⟨⟨-1, 0, 0⟩, 0⟩]⟩], 1⟩

/-- A shape with one vertex at the origin whose containment test accepts
every position. -/
def shapeAll : Shape := ⟨v0, [v0], fun _ => true⟩

/-- A shape with one vertex at the origin containing the segment `0 ≤ x ≤ 1`. -/
def shapeSeg : Shape := ⟨v0, [v0], fun p => decide (0 ≤ p.x ∧ p.x ≤ 1)⟩

/-- A shape with two vertices at `x = 0` and `x = 5/2`, containing
everything. -/
def shapeTwo : Shape := ⟨v0, [v0, ⟨5/2, 0, 0⟩], fun _ => true⟩

/-- A shape with an empty vertex list (violating the documented
at-least-one-vertex precondition of `find_bounds`). -/
def shapeEmpty : Shape := ⟨v0, [], fun _ => true⟩

/-- The exact solver for the identity lattice matrix: with basis vectors
equal to the Cartesian axes, `A*v = p` has solution `v = p`. -/
def idSolve : List V3 → V3 → V3 := fun _ p => p

/-- A concrete 3-site path graph `0 — 1 — 2` at the abstract level, for
exercising `clear_neighbors` directly. -/
def nbrsPath3 : ℕ → List ℕ := fun i =>
  if i = 0 then [1] else if i = 1 then [0, 2] else if i = 2 then [1] else []

/-- One step of the `clear_neighbors` visitor loop (the body of the fold in
`clearN`, with `fuel` for the recursive call). -/
def clearStep (nbrs : ℕ → List ℕ) (minN : ℤ) (fuel : ℕ) : St → ℕ → St :=
  fun acc j =>
    if gv acc j = false then acc
    else
      if gc (decc acc j) j < minN then clearN nbrs minN fuel j (invd (decc acc j) j)
      else decc acc j

/-- A concrete trimming state on the 3-site path: sites 0 and 1 both invalid
(stored counts still untouched at 1 and 2), site 2 valid with count 1. -/
def stPath3 : St := ⟨[false, false, true], [1, 2, 1]⟩

/-- A concrete trimming state on the 3-site path: site 0 invalid, sites 1 and
2 valid, counts as computed structurally. -/
def stPath3b : St := ⟨[false, true, true], [1, 2, 1]⟩

/-! ## Theorems -/

/-! ### List helpers -/

theorem getD_set_self {α} (l : List α) (i : ℕ) (v d : α) (h : i < l.length) :
    (l.set i v).getD i d = v := by
  rw [List.getD_eq_getElem _ _ (by simpa using h)]
  simp [List.getElem_set, h]

theorem getD_set_ne {α} (l : List α) (i j : ℕ) (v d : α) (h : i ≠ j) :
    (l.set i v).getD j d = l.getD j d := by
  by_cases hj : j < l.length
  · rw [List.getD_eq_getElem _ _ (by simpa using hj), List.getD_eq_getElem _ _ hj]
    simp [List.getElem_set, h]
  · rw [List.getD_eq_default _ _ (by simpa using Nat.le_of_not_lt hj),
      List.getD_eq_default _ _ (Nat.le_of_not_lt hj)]

theorem getD_map_range {β} (g : ℕ → β) (n i : ℕ) (d : β) (h : i < n) :
    ((List.range n).map g).getD i d = g i := by
  rw [List.getD_eq_getElem _ _ (by simpa using h)]
  simp [h]

theorem foldl_inv {α β} (P : β → Prop) (f : β → α → β) :
    ∀ (l : List α) (b : β), P b → (∀ acc x, x ∈ l → P acc → P (f acc x)) →
      P (l.foldl f b)
  | [], b, hb, _ => hb
  | x :: xs, b, hb, hstep =>
    foldl_inv P f xs (f b x) (hstep b x (by simp) hb)
      (fun acc y hy hacc => hstep acc y (by simp [hy]) hacc)

theorem countP_pointwise_le (l1 l2 : List Bool) (hlen : l1.length = l2.length)
    (h : ∀ i, i < l1.length → l1.getD i false = true → l2.getD i false = true) :
    countTrue l1 ≤ countTrue l2 := by
  induction l1 generalizing l2 with
  | nil => simp [countTrue]
  | cons x xs ih =>
    cases l2 with
    | nil => simp at hlen
    | cons y ys =>
      have hxy : x = true → y = true := by
        have := h 0 (by simp)
        simpa using this
      have htail : countTrue xs ≤ countTrue ys := by
        refine ih ys (by simpa using hlen) ?_
        intro i hi hx
        have := h (i + 1) (by simpa using Nat.succ_lt_succ hi) (by simpa using hx)
        simpa using this
      cases x with
      | false => simp [countTrue, List.countP_cons] at htail ⊢; omega
      | true =>
        have hy : y = true := hxy rfl
        subst hy
        simp [countTrue, List.countP_cons] at htail ⊢; omega

theorem countTrue_set_false (l : List Bool) (j : ℕ) (hj : j < l.length)
    (hv : l.getD j false = true) : countTrue (l.set j false) + 1 = countTrue l := by
  induction l generalizing j with
  | nil => simp at hj
  | cons x xs ih =>
    cases j with
    | zero =>
      have hx : x = true := by simpa using hv
      subst hx
      simp [countTrue, List.countP_cons]
    | succ j =>
      have := ih j (by simpa using Nat.lt_of_succ_lt_succ hj) (by simpa using hv)
      cases x <;> simp [countTrue, List.countP_cons] at this ⊢ <;> omega

theorem countTrue_le_length (l : List Bool) : countTrue l ≤ l.length :=
  List.countP_le_length _

/-! ### Basic state lemmas -/

theorem gv_decc (st : St) (j m : ℕ) : gv (decc st j) m = gv st m := rfl

theorem gv_zeroc (st : St) (s m : ℕ) : gv (zeroc st s) m = gv st m := rfl

theorem gc_invd (st : St) (j m : ℕ) : gc (invd st j) m = gc st m := rfl

theorem gv_invd_self (st : St) (j : ℕ) (hj : j < st.valid.length) :
    gv (invd st j) j = false :=
  getD_set_self st.valid j false true hj

theorem gv_invd_ne (st : St) (j m : ℕ) (h : j ≠ m) : gv (invd st j) m = gv st m :=
  getD_set_ne st.valid j m false true h

theorem gc_decc_self (st : St) (j : ℕ) (hj : j < st.cnt.length) :
    gc (decc st j) j = gc st j - 1 :=
  getD_set_self st.cnt j (gc st j - 1) 0 hj

theorem gc_decc_ne (st : St) (j m : ℕ) (h : j ≠ m) : gc (decc st j) m = gc st m :=
  getD_set_ne st.cnt j m (gc st j - 1) 0 h

theorem gc_zeroc_self (st : St) (s : ℕ) (hs : s < st.cnt.length) :
    gc (zeroc st s) s = 0 :=
  getD_set_self st.cnt s 0 0 hs

theorem gc_zeroc_ne (st : St) (s m : ℕ) (h : s ≠ m) : gc (zeroc st s) m = gc st m :=
  getD_set_ne st.cnt s m 0 0 h

theorem numValid_invd (st : St) (j : ℕ) (hj : j < st.valid.length)
    (hv : gv st j = true) : numValid (invd st j) + 1 = numValid st := by
  have : st.valid.getD j false = true := by
    have := hv
    rwa [gv, List.getD_eq_getElem _ _ hj, ← List.getD_eq_getElem st.valid false hj] at this
  simpa [numValid, invd, countTrue] using countTrue_set_false st.valid j hj this

theorem gv_invd_le (st : St) (j m : ℕ) (h : gv (invd st j) m = true) :
    gv st m = true := by
  by_cases hjm : j = m
  · subst hjm
    by_cases hj : j < st.valid.length
    · rw [gv_invd_self st j hj] at h; exact absurd h (by simp)
    · have hset : st.valid.set j false = st.valid :=
        List.set_eq_of_length_le (Nat.le_of_not_lt hj)
      rw [gv, invd] at h
      simpa [gv, hset] using h
  · rwa [gv_invd_ne st j m hjm] at h

/-! ### Structural lemmas about `clearN` -/

theorem clearN_len (nbrs : ℕ → List ℕ) (minN : ℤ) :
    ∀ fuel s st, (clearN nbrs minN fuel s st).valid.length = st.valid.length ∧
      (clearN nbrs minN fuel s st).cnt.length = st.cnt.length := by
  intro fuel
  induction fuel with
  | zero => intro s st; simp [clearN]
  | succ fuel ih =>
    intro s st
    simp only [clearN]
    by_cases hz : gc st s = 0
    · rw [if_pos hz]; exact ⟨rfl, rfl⟩
    · rw [if_neg hz]
      have hfold := foldl_inv
        (fun acc => acc.valid.length = st.valid.length ∧
          acc.cnt.length = st.cnt.length)
        (fun acc j =>
          if gv acc j = false then acc
          else
            if gc (decc acc j) j < minN then clearN nbrs minN fuel j (invd (decc acc j) j)
            else decc acc j)
        (nbrs s) st ⟨rfl, rfl⟩ ?_
      · constructor
        · simpa [zeroc] using hfold.1
        · simpa [zeroc] using hfold.2
      · intro acc x _ hacc
        dsimp only
        by_cases hgv : gv acc x = false
        · rw [if_pos hgv]; exact hacc
        · rw [if_neg hgv]
          by_cases hlt : gc (decc acc x) x < minN
          · rw [if_pos hlt]
            have h1 := ih x (invd (decc acc x) x)
            constructor
            · rw [h1.1]; simpa [invd, decc] using hacc.1
            · rw [h1.2]; simpa [invd, decc] using hacc.2
          · rw [if_neg hlt]
            simpa [decc] using hacc

theorem clearN_mono (nbrs : ℕ → List ℕ) (minN : ℤ) :
    ∀ fuel s st m, gv (clearN nbrs minN fuel s st) m = true → gv st m = true := by
  intro fuel
  induction fuel with
  | zero => intro s st m h; simpa [clearN] using h
  | succ fuel ih =>
    intro s st m h
    simp only [clearN] at h
    by_cases hz : gc st s = 0
    · rwa [if_pos hz] at h
    · rw [if_neg hz] at h
      rw [gv_zeroc] at h
      have hfold := foldl_inv
        (fun acc => ∀ m2, gv acc m2 = true → gv st m2 = true)
        (fun acc j =>
          if gv acc j = false then acc
          else
            if gc (decc acc j) j < minN then clearN nbrs minN fuel j (invd (decc acc j) j)
            else decc acc j)
        (nbrs s) st (fun _ hm => hm) ?_
      · exact hfold m h
      · intro acc x _ hacc
        dsimp only
        by_cases hgv : gv acc x = false
        · rw [if_pos hgv]; exact hacc
        · rw [if_neg hgv]
          by_cases hlt : gc (decc acc x) x < minN
          · rw [if_pos hlt]
            intro m2 hm2
            have := ih x (invd (decc acc x) x) m2 hm2
            exact hacc m2 (gv_invd_le (decc acc x) x m2 this)
          · rw [if_neg hlt]
            intro m2 hm2
            exact hacc m2 hm2

theorem clearN_cnt_invalid (nbrs : ℕ → List ℕ) (minN : ℤ) :
    ∀ fuel s st j, gv st j = false → j ≠ s →
      gc (clearN nbrs minN fuel s st) j = gc st j := by
  intro fuel
  induction fuel with
  | zero => intro s st j _ _; simp [clearN]
  | succ fuel ih =>
    intro s st j hj hjs
    simp only [clearN]
    by_cases hz : gc st s = 0
    · rw [if_pos hz]
    · rw [if_neg hz]
      have hfold := foldl_inv
        (fun acc => gc acc j = gc st j ∧ gv acc j = false)
        (fun acc m =>
          if gv acc m = false then acc
          else
            if gc (decc acc m) m < minN then clearN nbrs minN fuel m (invd (decc acc m) m)
            else decc acc m)
        (nbrs s) st ⟨rfl, hj⟩ ?_
      · rw [gc_zeroc_ne _ _ _ (Ne.symm hjs)]
        exact hfold.1
      · intro acc x _ hacc
        dsimp only
        by_cases hgv : gv acc x = false
        · rw [if_pos hgv]; exact hacc
        · rw [if_neg hgv]
          have hxj : x ≠ j := by
            intro hxj
            rw [hxj] at hgv
            exact hgv hacc.2
          by_cases hlt : gc (decc acc x) x < minN
          · rw [if_pos hlt]
            have hjinv : gv (invd (decc acc x) x) j = false := by
              rw [gv_invd_ne _ _ _ hxj, gv_decc]
              exact hacc.2
            constructor
            · rw [ih x (invd (decc acc x) x) j hjinv hxj.symm, gc_invd,
                gc_decc_ne _ _ _ hxj]
              exact hacc.1
            · by_contra hcon
              have : gv (clearN nbrs minN fuel x (invd (decc acc x) x)) j = true := by
                cases hgvj : gv (clearN nbrs minN fuel x (invd (decc acc x) x)) j
                · exact absurd hgvj hcon
                · rfl
              have := clearN_mono nbrs minN fuel x (invd (decc acc x) x) j this
              rw [hjinv] at this
              exact absurd this (by simp)
          · rw [if_neg hlt]
            exact ⟨by rw [gc_decc_ne _ _ _ hxj]; exact hacc.1, hacc.2⟩

theorem clearN_gc_self (nbrs : ℕ → List ℕ) (minN : ℤ) (fuel s : ℕ) (st : St)
    (hs : s < st.cnt.length) : gc (clearN nbrs minN (fuel + 1) s st) s = 0 := by
  simp only [clearN]
  by_cases hz : gc st s = 0
  · rwa [if_pos hz]
  · rw [if_neg hz]
    have hlen : ((nbrs s).foldl
        (fun acc j =>
          if gv acc j = false then acc
          else
            if gc (decc acc j) j < minN then clearN nbrs minN fuel j (invd (decc acc j) j)
            else decc acc j)
        st).cnt.length = st.cnt.length := by
      refine foldl_inv (fun acc => acc.cnt.length = st.cnt.length) _ (nbrs s) st rfl ?_
      intro acc x _ hacc
      dsimp only
      by_cases hgv : gv acc x = false
      · rw [if_pos hgv]; exact hacc
      · rw [if_neg hgv]
        by_cases hlt : gc (decc acc x) x < minN
        · rw [if_pos hlt]
          rw [(clearN_len nbrs minN fuel x (invd (decc acc x) x)).2]
          simpa [invd, decc] using hacc
        · rw [if_neg hlt]
          simpa [decc] using hacc
    exact gc_zeroc_self _ _ (hlen ▸ hs)

theorem clearN_idem (nbrs : ℕ → List ℕ) (minN : ℤ) (fuel s : ℕ) (st : St)
    (hs : s < st.cnt.length) :
    clearN nbrs minN (fuel + 1) s (clearN nbrs minN (fuel + 1) s st) =
      clearN nbrs minN (fuel + 1) s st := by
  have h0 := clearN_gc_self nbrs minN fuel s st hs
  conv_lhs => rw [clearN]
  rw [if_pos h0]

theorem fold_nocascade (nbrs : ℕ → List ℕ) (minN : ℤ) (fuel s : ℕ) (st : St)
    (hval : ∀ j ∈ nbrs s, gv st j = true ∧
      minN ≤ gc st j - (((nbrs s).count j : ℕ) : ℤ))
    (hlt : ∀ j ∈ nbrs s, j < st.cnt.length) :
    ∀ (l pre : List ℕ) (acc : St), pre ++ l = nbrs s →
      (∀ j, gc acc j = gc st j - ((pre.count j : ℕ) : ℤ)) →
      (∀ m, gv acc m = gv st m) → acc.cnt.length = st.cnt.length →
      (∀ j, gc (l.foldl
          (fun acc2 m =>
            if gv acc2 m = false then acc2
            else
              if gc (decc acc2 m) m < minN then
                clearN nbrs minN fuel m (invd (decc acc2 m) m)
              else decc acc2 m)
          acc) j = gc st j - (((pre ++ l).count j : ℕ) : ℤ)) ∧
      (∀ m, gv (l.foldl
          (fun acc2 m2 =>
            if gv acc2 m2 = false then acc2
            else
              if gc (decc acc2 m2) m2 < minN then
                clearN nbrs minN fuel m2 (invd (decc acc2 m2) m2)
              else decc acc2 m2)
          acc) m = gv st m) ∧
      (l.foldl
          (fun acc2 m2 =>
            if gv acc2 m2 = false then acc2
            else
              if gc (decc acc2 m2) m2 < minN then
                clearN nbrs minN fuel m2 (invd (decc acc2 m2) m2)
              else decc acc2 m2)
          acc).cnt.length = st.cnt.length := by
  intro l
  induction l with
  | nil =>
    intro pre acc hsplit hcnt hvalid hlen
    simpa using ⟨fun j => hcnt j, hvalid, hlen⟩
  | cons x l ih =>
    intro pre acc hsplit hcnt hvalid hlen
    have hxmem : x ∈ nbrs s := by
      rw [← hsplit]; simp
    have hx := hval x hxmem
    have hxlen : x < acc.cnt.length := hlen ▸ hlt x hxmem
    have hgvx : ¬ gv acc x = false := by
      rw [hvalid x, hx.1]; simp
    have hdec : gc (decc acc x) x = gc st x - ((pre.count x : ℕ) : ℤ) - 1 := by
      rw [gc_decc_self acc x hxlen, hcnt x]
    have hnolt : ¬ gc (decc acc x) x < minN := by
      rw [hdec]
      have hcount : (pre.count x : ℤ) + 1 ≤ ((nbrs s).count x : ℤ) := by
        rw [← hsplit, List.count_append, List.count_cons_self]
        push_cast
        omega
      have := hx.2
      omega
    have hstep : (x :: l).foldl
        (fun acc2 m2 =>
          if gv acc2 m2 = false then acc2
          else
            if gc (decc acc2 m2) m2 < minN then
              clearN nbrs minN fuel m2 (invd (decc acc2 m2) m2)
            else decc acc2 m2)
        acc = l.foldl
        (fun acc2 m2 =>
          if gv acc2 m2 = false then acc2
          else
            if gc (decc acc2 m2) m2 < minN then
              clearN nbrs minN fuel m2 (invd (decc acc2 m2) m2)
            else decc acc2 m2)
        (decc acc x) := by
      simp only [List.foldl_cons]
      rw [if_neg hgvx, if_neg hnolt]
    rw [hstep]
    have hres := ih (pre ++ [x]) (decc acc x)
      (by rw [← hsplit]; simp)
      (fun j => by
        by_cases hjx : x = j
        · subst hjx
          rw [gc_decc_self acc x hxlen, hcnt x]
          have hc : List.count x (pre ++ [x]) = List.count x pre + 1 := by simp
          rw [hc]
          push_cast
          ring
        · rw [gc_decc_ne acc x j hjx, hcnt j]
          have hc : List.count j (pre ++ [x]) = List.count j pre := by
            rw [List.count_append]
            simp [List.count_singleton']
            exact hjx
          rw [hc])
      (fun m => by rw [gv_decc, hvalid m])
      (by simpa [decc] using hlen)
    have hsplit2 : (pre ++ [x]) ++ l = pre ++ x :: l := by simp
    rw [hsplit2] at hres
    exact hres

theorem clearN_nocascade (nbrs : ℕ → List ℕ) (minN : ℤ) (fuel s : ℕ) (st : St)
    (hnz : gc st s ≠ 0)
    (hval : ∀ j ∈ nbrs s, gv st j = true ∧
      minN ≤ gc st j - (((nbrs s).count j : ℕ) : ℤ))
    (hltl : ∀ j ∈ nbrs s, j < st.cnt.length) :
    (∀ j, j ≠ s → gc (clearN nbrs minN (fuel + 1) s st) j =
      gc st j - (((nbrs s).count j : ℕ) : ℤ)) ∧
    (∀ m, gv (clearN nbrs minN (fuel + 1) s st) m = gv st m) := by
  have hres := fold_nocascade nbrs minN fuel s st hval hltl (nbrs s) [] st
    (by simp) (fun j => by simp) (fun m => rfl) rfl
  simp only [List.nil_append] at hres
  simp only [clearN]
  rw [if_neg hnz]
  refine ⟨fun j hjs => ?_, fun m => ?_⟩
  · rw [gc_zeroc_ne _ _ _ (Ne.symm hjs)]
    exact hres.1 j
  · rw [gv_zeroc]
    exact hres.2.1 m

/-! ### Claim C2: behaviour of `clear_neighbors` -/

/-- C2, counterexample: the claim states that `clear_neighbors`, invoked on an
invalid site with nonzero stored count, decrements the stored count of every
in-box neighbour regardless of that neighbour's validity.  On the 3-site path
`0 — 1 — 2` with site 1 invalid (count 2) and site 0 an invalid in-box
neighbour of site 1 (count 1), running `clear_neighbors` on site 1 leaves
site 0's count at 1: invalid neighbours are skipped, not decremented. -/
theorem claim2_counterexample :
    gv stPath3 1 = false ∧ gc stPath3 1 ≠ 0 ∧ 0 ∈ nbrsPath3 1 ∧
    gv stPath3 0 = false ∧ gc stPath3 0 = 1 ∧
    gc (clearN nbrsPath3 2 4 1 stPath3) 0 = 1 := by decide

/-- C2, amended: for an invalid site `s`, `clear_neighbors` (a) never changes
the stored count of any other site that is already invalid at entry — only
neighbours that are valid when visited are decremented; (b) zeroes `s`'s own
count; (c) is a no-op when invoked a second time on `s`; and (d) when `s`'s
count is nonzero and every in-box neighbour of `s` is valid with enough count
margin that no cascade triggers, each neighbour's count drops by exactly its
hopping multiplicity and no validity flag changes. -/
theorem claim2_amended (nbrs : ℕ → List ℕ) (minN : ℤ) (fuel s : ℕ) (st : St)
    (_hinv : gv st s = false) (hs : s < st.cnt.length) :
    (∀ j, gv st j = false → j ≠ s →
      gc (clearN nbrs minN (fuel + 1) s st) j = gc st j) ∧
    gc (clearN nbrs minN (fuel + 1) s st) s = 0 ∧
    clearN nbrs minN (fuel + 1) s (clearN nbrs minN (fuel + 1) s st) =
      clearN nbrs minN (fuel + 1) s st ∧
    (gc st s ≠ 0 →
      (∀ j ∈ nbrs s, gv st j = true ∧ minN ≤ gc st j - ((nbrs s).count j : ℤ)) →
      (∀ j ∈ nbrs s, j < st.cnt.length) →
      (∀ j, j ≠ s → gc (clearN nbrs minN (fuel + 1) s st) j =
        gc st j - ((nbrs s).count j : ℤ)) ∧
      (∀ m, gv (clearN nbrs minN (fuel + 1) s st) m = gv st m)) := by
  refine ⟨fun j hj hjs => clearN_cnt_invalid nbrs minN (fuel + 1) s st j hj hjs,
    clearN_gc_self nbrs minN fuel s st hs,
    clearN_idem nbrs minN fuel s st hs,
    fun hnz hval hltl => clearN_nocascade nbrs minN fuel s st hnz hval hltl⟩

/-- C2, witness: the amended theorem applied to the 3-site path with site 0
invalid, `min_neighbours = 1`: site 0's count is zeroed, a second invocation
is a no-op, and the single valid neighbour's count drops by exactly 1. -/
theorem claim2_witness :
    gv stPath3b 0 = false ∧ 0 < stPath3b.cnt.length ∧
    gc (clearN nbrsPath3 1 1 0 stPath3b) 0 = 0 ∧
    clearN nbrsPath3 1 1 0 (clearN nbrsPath3 1 1 0 stPath3b) =
      clearN nbrsPath3 1 1 0 stPath3b ∧
    gc (clearN nbrsPath3 1 1 0 stPath3b) 1 =
      gc stPath3b 1 - ((nbrsPath3 0).count 1 : ℤ) := by
  have h := claim2_amended nbrsPath3 1 0 0 stPath3b (by decide) (by decide)
  exact ⟨by decide, by decide, h.2.1, h.2.2.1,
    (h.2.2.2 (by decide) (by decide) (by decide)).1 1 (by decide)⟩

/-! ### Claim C6: `count_neighbors` -/

theorem foldl_sub_countP {α} (p : α → Bool) :
    ∀ (l : List α) (init : ℤ),
      l.foldl (fun acc h => if p h then acc else acc - 1) init =
        init - (l.countP (fun h => !p h) : ℤ) := by
  intro l
  induction l with
  | nil => intro init; simp
  | cons x xs ih =>
    intro init
    rw [List.foldl_cons, List.countP_cons]
    cases hp : p x
    · rw [if_neg (by simp [hp]), ih]
      simp [hp]
      ring
    · rw [if_pos (by simp [hp]), ih]
      simp [hp]

/-- C6: `count_neighbors` assigns each site the number of hopping rules of
its sublattice minus one per hopping rule whose target 3D index falls outside
`[0, size)` on some axis; and it is entirely independent of the `is_valid`
array. -/
theorem claim6_count_neighbors (f : Foundation) (v : List Bool) (i : ℕ)
    (hi : i < numSitesNat f) :
    (count_neighbors f).getD i 0 =
      ((siteSublattice f i).hoppings.length : ℤ) -
        (((siteSublattice f i).hoppings.countP
          (fun h => !inBox f.size (siteIndex f i + h.relative_index)) : ℕ) : ℤ) ∧
    count_neighbors { f with is_valid := v } = count_neighbors f := by
  constructor
  · rw [count_neighbors, getD_map_range _ _ _ _ hi,
      foldl_sub_countP (fun h : Hopping =>
        inBox f.size (siteIndex f i + h.relative_index))]
  · rfl

/-- C6, witness: on the 3-site chain foundation, the middle site keeps both
hopping rules while the boundary sites lose one each, whatever `is_valid`
holds. -/
theorem claim6_witness :
    1 < numSitesNat (foundationPre idSolve latChain2 shapeAll) ∧
    (count_neighbors (foundationPre idSolve latChain2 shapeAll)).getD 1 0 =
      ((siteSublattice (foundationPre idSolve latChain2 shapeAll) 1).hoppings.length : ℤ) -
        (((siteSublattice (foundationPre idSolve latChain2 shapeAll) 1).hoppings.countP
          (fun h => !inBox (foundationPre idSolve latChain2 shapeAll).size
            (siteIndex (foundationPre idSolve latChain2 shapeAll) 1 +
              h.relative_index)) : ℕ) : ℤ) ∧
    count_neighbors { foundationPre idSolve latChain2 shapeAll with
      is_valid := [false, false, false] } =
      count_neighbors (foundationPre idSolve latChain2 shapeAll) := by
  have h := claim6_count_neighbors (foundationPre idSolve latChain2 shapeAll)
    [false, false, false] 1 (by decide)
  exact ⟨by decide, h.1, h.2⟩

/-! ### Claim C10: `find_bounds` on an empty vertex list -/

/-- C10: with an empty vertex list, `find_bounds` still returns (no error
branch): the sentinels shifted by the padding.  Every component of the lower
bound is `INT_MAX` or `INT_MAX - 1`, every component of the upper bound is
`INT_MIN` or `INT_MIN + 1`, the lower bound strictly exceeds the upper bound
on every component (never a valid box), and the components beyond `ndim` are
the untouched sentinels — in particular not 0. -/
theorem claim10_empty_vertices (solve : List V3 → V3 → V3) (lat : Lattice)
    (shape : Shape) (hv : shape.vertices = []) :
    ∀ k, k < 3 →
      (find_bounds solve shape lat).1.comp k =
        (if k < lat.vectors.length then intMax - 1 else intMax) ∧
      (find_bounds solve shape lat).2.comp k =
        (if k < lat.vectors.length then intMin + 1 else intMin) ∧
      (find_bounds solve shape lat).2.comp k < (find_bounds solve shape lat).1.comp k ∧
      (lat.vectors.length ≤ k → (find_bounds solve shape lat).1.comp k ≠ 0 ∧
        (find_bounds solve shape lat).2.comp k ≠ 0) := by
  intro k hk
  have hfb : find_bounds solve shape lat =
      (padLower ⟨intMax, intMax, intMax⟩ lat.vectors.length,
       padUpper ⟨intMin, intMin, intMin⟩ lat.vectors.length) := by
    rw [find_bounds, hv]
    simp only [List.foldl_nil]
  rw [hfb]
  interval_cases k <;>
    · simp only [padLower, padUpper, I3.comp, intMax, intMin]
      split_ifs <;> simp_all

/-- C10, witness: the chain lattice (`ndim = 1`) with the empty-vertex shape,
checked on component 1 (beyond `ndim`, sentinel untouched) and on
component 0. -/
theorem claim10_witness :
    shapeEmpty.vertices = [] ∧ (1 : ℕ) < 3 ∧
    (find_bounds idSolve shapeEmpty latChain1).1.comp 1 = intMax ∧
    (find_bounds idSolve shapeEmpty latChain1).2.comp 1 = intMin ∧
    (find_bounds idSolve shapeEmpty latChain1).1.comp 0 = intMax - 1 ∧
    (find_bounds idSolve shapeEmpty latChain1).2.comp 0 = intMin + 1 := by
  have h1 := claim10_empty_vertices idSolve latChain1 shapeEmpty rfl 1 (by decide)
  have h0 := claim10_empty_vertices idSolve latChain1 shapeEmpty rfl 0 (by decide)
  refine ⟨rfl, by decide, ?_, ?_, ?_, ?_⟩
  · rw [h1.1]; decide
  · rw [h1.2.1]; decide
  · rw [h0.1]; decide
  · rw [h0.2.1]; decide

/-! ### Claim C9: `find_bounds` on a nonempty vertex list -/

theorem selMin_comp (v w : I3) (k : ℕ) :
    (selMin v w).comp k = min (v.comp k) (w.comp k) := by
  unfold selMin I3.comp
  split_ifs <;> rfl

theorem selMax_comp (v w : I3) (k : ℕ) :
    (selMax v w).comp k = max (v.comp k) (w.comp k) := by
  unfold selMax I3.comp
  split_ifs <;> rfl

theorem foldl_pair_minmax (g : V3 → I3) :
    ∀ (l : List V3) (x y : I3),
      l.foldl (fun bd p => (selMin (g p) bd.1, selMax (g p) bd.2)) (x, y) =
        (l.foldl (fun a p => selMin (g p) a) x,
         l.foldl (fun a p => selMax (g p) a) y) := by
  intro l
  induction l with
  | nil => intro x y; rfl
  | cons p ps ih => intro x y; simp only [List.foldl_cons]; exact ih _ _

theorem foldl_selMin_comp (g : V3 → I3) (k : ℕ) :
    ∀ (l : List V3) (a : I3),
      (l.foldl (fun acc p => selMin (g p) acc) a).comp k =
        l.foldl (fun m p => min m ((g p).comp k)) (a.comp k) := by
  intro l
  induction l with
  | nil => intro a; rfl
  | cons p ps ih =>
    intro a
    simp only [List.foldl_cons]
    rw [ih, selMin_comp, min_comm]

theorem foldl_selMax_comp (g : V3 → I3) (k : ℕ) :
    ∀ (l : List V3) (a : I3),
      (l.foldl (fun acc p => selMax (g p) acc) a).comp k =
        l.foldl (fun m p => max m ((g p).comp k)) (a.comp k) := by
  intro l
  induction l with
  | nil => intro a; rfl
  | cons p ps ih =>
    intro a
    simp only [List.foldl_cons]
    rw [ih, selMax_comp, max_comm]

theorem boundVecI3_comp (solve : List V3 → V3 → V3) (vecs : List V3) (p : V3)
    (k : ℕ) (hk : k < 3) :
    (boundVecI3 solve vecs p).comp k = boundVec solve vecs p k := by
  interval_cases k <;> rfl

theorem padLower_comp (v : I3) (nd k : ℕ) (hk : k < 3) :
    (padLower v nd).comp k = v.comp k - (if k < nd then 1 else 0) := by
  interval_cases k <;>
    · simp [padLower, I3.comp]
      split_ifs <;> omega

theorem padUpper_comp (v : I3) (nd k : ℕ) (hk : k < 3) :
    (padUpper v nd).comp k = v.comp k + (if k < nd then 1 else 0) := by
  interval_cases k <;>
    · simp [padUpper, I3.comp]
      split_ifs <;> omega

theorem foldl_min_const (g : V3 → ℤ) (a : ℤ) :
    ∀ (l : List V3), (∀ p ∈ l, g p = a) →
      l.foldl (fun m p => min m (g p)) a = a := by
  intro l
  induction l with
  | nil => intro _; rfl
  | cons p ps ih =>
    intro h
    simp only [List.foldl_cons]
    rw [h p (by simp), min_self]
    exact ih fun q hq => h q (by simp [hq])

theorem foldl_max_const (g : V3 → ℤ) (a : ℤ) :
    ∀ (l : List V3), (∀ p ∈ l, g p = a) →
      l.foldl (fun m p => max m (g p)) a = a := by
  intro l
  induction l with
  | nil => intro _; rfl
  | cons p ps ih =>
    intro h
    simp only [List.foldl_cons]
    rw [h p (by simp), max_self]
    exact ih fun q hq => h q (by simp [hq])

/-- C9: with at least one vertex and no `int` overflow in the truncated
lattice-coordinate solutions, `find_bounds` returns the componentwise running
minimum over all vertices minus 1 and the running maximum plus 1, the ∓1
padding being applied only to the first `ndim` components; every component
beyond `ndim` is 0 in both bounds. -/
theorem claim9_find_bounds (solve : List V3 → V3 → V3) (lat : Lattice)
    (shape : Shape) (p0 : V3) (rest : List V3)
    (hv : shape.vertices = p0 :: rest)
    (hub : ∀ p ∈ shape.vertices, ∀ k ∈ List.range 3,
      boundVec solve lat.vectors p k ≤ intMax ∧
      intMin ≤ boundVec solve lat.vectors p k) :
    ∀ k, k < 3 →
      (find_bounds solve shape lat).1.comp k =
        rest.foldl (fun m p => min m (boundVec solve lat.vectors p k))
          (boundVec solve lat.vectors p0 k) -
          (if k < lat.vectors.length then 1 else 0) ∧
      (find_bounds solve shape lat).2.comp k =
        rest.foldl (fun m p => max m (boundVec solve lat.vectors p k))
          (boundVec solve lat.vectors p0 k) +
          (if k < lat.vectors.length then 1 else 0) ∧
      (lat.vectors.length ≤ k →
        (find_bounds solve shape lat).1.comp k = 0 ∧
        (find_bounds solve shape lat).2.comp k = 0) := by
  intro k hk
  have hmem0 : p0 ∈ shape.vertices := by rw [hv]; simp
  have hcomp1 : ((p0 :: rest).foldl
      (fun bd p => selMin (boundVecI3 solve lat.vectors p) bd)
      ⟨intMax, intMax, intMax⟩).comp k =
      rest.foldl (fun m p => min m (boundVec solve lat.vectors p k))
        (boundVec solve lat.vectors p0 k) := by
    rw [foldl_selMin_comp]
    simp only [List.foldl_cons]
    have h0 : min (I3.comp ⟨intMax, intMax, intMax⟩ k)
        ((boundVecI3 solve lat.vectors p0).comp k) =
        boundVec solve lat.vectors p0 k := by
      rw [boundVecI3_comp _ _ _ _ hk]
      have hle := (hub p0 hmem0 k (by simpa using hk)).1
      have hMc : I3.comp ⟨intMax, intMax, intMax⟩ k = intMax := by
        unfold I3.comp; split_ifs <;> rfl
      rw [hMc, min_eq_right hle]
    rw [h0]
    exact List.foldl_ext _ _ _ (fun m p _ => by rw [boundVecI3_comp _ _ _ _ hk])
  have hcomp2 : ((p0 :: rest).foldl
      (fun bd p => selMax (boundVecI3 solve lat.vectors p) bd)
      ⟨intMin, intMin, intMin⟩).comp k =
      rest.foldl (fun m p => max m (boundVec solve lat.vectors p k))
        (boundVec solve lat.vectors p0 k) := by
    rw [foldl_selMax_comp]
    simp only [List.foldl_cons]
    have h0 : max (I3.comp ⟨intMin, intMin, intMin⟩ k)
        ((boundVecI3 solve lat.vectors p0).comp k) =
        boundVec solve lat.vectors p0 k := by
      rw [boundVecI3_comp _ _ _ _ hk]
      have hge := (hub p0 hmem0 k (by simpa using hk)).2
      have hMc : I3.comp ⟨intMin, intMin, intMin⟩ k = intMin := by
        unfold I3.comp; split_ifs <;> rfl
      rw [hMc, max_eq_right hge]
    rw [h0]
    exact List.foldl_ext _ _ _ (fun m p _ => by rw [boundVecI3_comp _ _ _ _ hk])
  have hfb : find_bounds solve shape lat =
      (padLower ((p0 :: rest).foldl
          (fun bd p => selMin (boundVecI3 solve lat.vectors p) bd)
          ⟨intMax, intMax, intMax⟩) lat.vectors.length,
       padUpper ((p0 :: rest).foldl
          (fun bd p => selMax (boundVecI3 solve lat.vectors p) bd)
          ⟨intMin, intMin, intMin⟩) lat.vectors.length) := by
    rw [find_bounds, hv, foldl_pair_minmax (boundVecI3 solve lat.vectors)]
  rw [hfb]
  refine ⟨?_, ?_, ?_⟩
  · rw [padLower_comp _ _ _ hk, hcomp1]
  · rw [padUpper_comp _ _ _ hk, hcomp2]
  · intro hnd
    have hz : ∀ p, boundVec solve lat.vectors p k = 0 := by
      intro p
      unfold boundVec
      rw [if_neg (by omega)]
    constructor
    · rw [padLower_comp _ _ _ hk, hcomp1, if_neg (by omega), hz p0,
        foldl_min_const _ _ _ (fun p _ => hz p)]
      ring
    · rw [padUpper_comp _ _ _ hk, hcomp2, if_neg (by omega), hz p0,
        foldl_max_const _ _ _ (fun p _ => hz p)]
      ring

/-- C9, witness: the chain lattice with vertices at `x = 0` and `x = 5/2`:
truncated solutions 0 and 2, so the padded box is `[-1, 3]` on the lattice
axis and `[0, 0]` beyond `ndim`. -/
theorem claim9_witness :
    shapeTwo.vertices = v0 :: [⟨5/2, 0, 0⟩] ∧
    (find_bounds idSolve shapeTwo latChain1).1.comp 0 = -1 ∧
    (find_bounds idSolve shapeTwo latChain1).2.comp 0 = 3 ∧
    (find_bounds idSolve shapeTwo latChain1).1.comp 1 = 0 ∧
    (find_bounds idSolve shapeTwo latChain1).2.comp 1 = 0 := by
  have h0 := claim9_find_bounds idSolve latChain1 shapeTwo v0 [⟨5/2, 0, 0⟩]
    rfl (by with_unfolding_all decide) 0 (by decide)
  have h1 := claim9_find_bounds idSolve latChain1 shapeTwo v0 [⟨5/2, 0, 0⟩]
    rfl (by with_unfolding_all decide) 1 (by decide)
  refine ⟨rfl, ?_, ?_, ?_, ?_⟩
  · rw [h0.1]; with_unfolding_all decide
  · rw [h0.2.1]; with_unfolding_all decide
  · exact ((h1.2.2) (by decide)).1
  · exact ((h1.2.2) (by decide)).2

/-! ### Claim C7: `generate_positions` -/

theorem add_v0 (u : V3) : u + v0 = u := by
  rw [V3.add_comp]
  cases u
  simp [v0]

theorem smulV_zero (v : V3) : smulV 0 v = v0 := by
  simp [smulV, v0]

theorem stepPos_eq (pa : V3) (k : ℕ) (vec : V3) :
    stepPos pa k vec = pa + smulV (k : ℚ) vec := by
  unfold stepPos
  by_cases hk : k = 0
  · rw [if_pos hk, hk]
    rw [Nat.cast_zero, smulV_zero, add_v0]
  · rw [if_neg hk]

theorem length_flatMap_const {α β} (f : α → List β) (m : ℕ) :
    ∀ l : List α, (∀ x ∈ l, (f x).length = m) → (l.flatMap f).length = l.length * m := by
  intro l
  induction l with
  | nil => intro _; simp
  | cons x xs ih =>
    intro h
    rw [List.flatMap_cons, List.length_append, h x (by simp),
      ih (fun y hy => h y (by simp [hy])), List.length_cons]
    ring

theorem getD_flatMap_const {α β} (f : α → List β) (m : ℕ) (d : β) (dflt : α) :
    ∀ (l : List α) (i j : ℕ), (∀ x ∈ l, (f x).length = m) → i < l.length → j < m →
      (l.flatMap f).getD (i * m + j) d = (f (l.getD i dflt)).getD j d := by
  intro l
  induction l with
  | nil => intro i j _ hi _; simp at hi
  | cons x xs ih =>
    intro i j h hi hj
    rw [List.flatMap_cons]
    cases i with
    | zero =>
      rw [Nat.zero_mul, Nat.zero_add,
        List.getD_append _ _ _ _ (by rw [h x (by simp)]; exact hj)]
      rfl
    | succ i =>
      have hlen : (f x).length = m := h x (by simp)
      have hidx : (i + 1) * m + j = (f x).length + (i * m + j) := by
        rw [hlen]; ring
      rw [hidx, List.getD_append_right _ _ _ _ (by omega),
        Nat.add_sub_cancel_left]
      exact ih i j (fun y hy => h y (by simp [hy]))
        (by simpa using Nat.lt_of_succ_lt_succ (Nat.succ_lt_succ
          (Nat.lt_of_succ_lt_succ (Nat.succ_lt_succ hi)))) hj

theorem getD_range (n i : ℕ) (d : ℕ) (h : i < n) : (List.range n).getD i d = i := by
  rw [List.getD_eq_getElem _ _ (by simpa using h)]
  simp

theorem getD_map_lt {α β} (g : α → β) (l : List α) (i : ℕ) (d : β) (d2 : α)
    (h : i < l.length) : (l.map g).getD i d = g (l.getD i d2) := by
  rw [List.getD_eq_getElem _ _ (by simpa using h), List.getD_eq_getElem _ _ h]
  simp

theorem enc_lt (c s sc ns : ℕ) (hc : c < sc) (hs : s < ns) :
    c * ns + s < sc * ns := by
  calc c * ns + s < c * ns + ns := by omega
  _ = (c + 1) * ns := by ring
  _ ≤ sc * ns := Nat.mul_le_mul_right ns hc

/-- C7: `generate_positions` yields exactly
`size.a * size.b * size.c * num_sublattices` positions, enumerated with `a`
outermost, then `b`, `c`, sublattice innermost; the entry at flat index
`((a*size.b + b)*size.c + c)*num_sublattices + sub` is
`origin + a·vec0 + b·vec1 + c·vec2 + offset(sub)`. -/
theorem claim7_generate_positions (origin : V3) (size : I3) (lat : Lattice)
    (a b c sub : ℕ) (ha : a < size.a.toNat) (hb : b < size.b.toNat)
    (hc : c < size.c.toNat) (hsub : sub < lat.sublattices.length) :
    (generate_positions origin size lat).length =
      size.a.toNat * size.b.toNat * size.c.toNat * lat.sublattices.length ∧
    (generate_positions origin size lat).getD
      (((a * size.b.toNat + b) * size.c.toNat + c) * lat.sublattices.length + sub)
      v0 =
      origin + smulV (a : ℚ) (latVec lat 0) + smulV (b : ℚ) (latVec lat 1) +
        smulV (c : ℚ) (latVec lat 2) + (lat.sublattices.getD sub ⟨v0, []⟩).offset := by
  set ns := lat.sublattices.length with hns
  set sc := size.c.toNat with hsc
  set sb := size.b.toNat with hsb
  set sa := size.a.toNat with hsa
  have hinner : ∀ p : V3, (lat.sublattices.map fun sub => p + sub.offset).length = ns := by
    intro p; simp [hns]
  have hmid : ∀ (p : V3) (k : ℕ),
      ((List.range sc).flatMap fun c2 =>
        lat.sublattices.map fun sub => stepPos p c2 (latVec lat k) + sub.offset).length =
        sc * ns := by
    intro p k
    rw [length_flatMap_const _ ns _ (fun x _ => hinner _), List.length_range]
  have houter : ∀ p : V3,
      ((List.range sb).flatMap fun b2 =>
        (List.range sc).flatMap fun c2 =>
          lat.sublattices.map fun sub =>
            stepPos (stepPos p b2 (latVec lat 1)) c2 (latVec lat 2) + sub.offset).length =
        sb * (sc * ns) := by
    intro p
    rw [length_flatMap_const _ (sc * ns) _ (fun x _ => hmid _ _), List.length_range]
  constructor
  · rw [generate_positions]
    rw [length_flatMap_const _ (sb * (sc * ns)) _ (fun x _ => houter _),
      List.length_range]
    ring
  · rw [generate_positions]
    have hidx : ((a * sb + b) * sc + c) * ns + sub =
        a * (sb * (sc * ns)) + (b * (sc * ns) + (c * ns + sub)) := by ring
    rw [hidx]
    rw [getD_flatMap_const _ (sb * (sc * ns)) v0 0 _ a _
      (fun x _ => houter _) (by rw [List.length_range]; exact ha)
      (enc_lt b _ sb (sc * ns) hb (enc_lt c sub sc ns hc hsub))]
    rw [getD_range _ _ _ ha]
    rw [getD_flatMap_const _ (sc * ns) v0 0 _ b _
      (fun x _ => hmid _ _) (by rw [List.length_range]; exact hb)
      (enc_lt c sub sc ns hc hsub)]
    rw [getD_range _ _ _ hb]
    rw [getD_flatMap_const _ ns v0 0 _ c _
      (fun x _ => hinner _) (by rw [List.length_range]; exact hc) hsub]
    rw [getD_range _ _ _ hc]
    rw [getD_map_lt _ _ _ _ ⟨v0, []⟩ (by simpa using hsub)]
    rw [stepPos_eq, stepPos_eq]

/-- C7, witness: a 2-cell chain starting at the origin; site `(a,b,c,sub) =
(1,0,0,0)` sits at flat index 1 with position `(1,0,0)`. -/
theorem claim7_witness :
    ((generate_positions v0 ⟨2, 1, 1⟩ latChain2).length =
      (2 : ℤ).toNat * (1 : ℤ).toNat * (1 : ℤ).toNat * latChain2.sublattices.length ∧
    (generate_positions v0 ⟨2, 1, 1⟩ latChain2).getD
      (((1 * (1 : ℤ).toNat + 0) * (1 : ℤ).toNat + 0) * latChain2.sublattices.length + 0)
      v0 =
      v0 + smulV ((1 : ℕ) : ℚ) (latVec latChain2 0) +
        smulV ((0 : ℕ) : ℚ) (latVec latChain2 1) +
        smulV ((0 : ℕ) : ℚ) (latVec latChain2 2) +
        (latChain2.sublattices.getD 0 ⟨v0, []⟩).offset) ∧
    (generate_positions v0 ⟨2, 1, 1⟩ latChain2).getD 1 v0 = ⟨1, 0, 0⟩ := by
  refine ⟨claim7_generate_positions v0 ⟨2, 1, 1⟩ latChain2 1 0 0 0
    (by decide) (by decide) (by decide) (by decide), ?_⟩
  with_unfolding_all decide

/-! ### Claim C8: the shape-based constructor -/

theorem V3.add_assoc3 (u v w : V3) : u + v + w = u + (v + w) := by
  cases u; cases v; cases w
  simp only [V3.add_comp, V3.mk.injEq]
  exact ⟨by ring, by ring, by ring⟩

theorem foldl_add_sumV (g : ℕ → V3) :
    ∀ (l : List ℕ) (p : V3), l.foldl (fun q i => q + g i) p = p + sumV (l.map g) := by
  intro l
  induction l with
  | nil => intro p; simp [sumV, add_v0]
  | cons x xs ih =>
    intro p
    rw [List.foldl_cons, ih, List.map_cons]
    show p + g x + sumV (xs.map g) = p + (g x + sumV (xs.map g))
    exact V3.add_assoc3 _ _ _

/-- C8: the shape-based `Foundation` constructor computes bounds with
`find_bounds`, sets `size = (upper - lower) + 1` per dimension and
`num_sites = size.a * size.b * size.c * size_n`, takes
`origin = shape.offset + Σ_{i<ndim} lower[i]·vector[i]`, generates positions
over that box, initialises `is_valid = shape.contains(positions)`, and ends
by running the edge-trimming pass. -/
theorem claim8_shape_constructor (solve : List V3 → V3 → V3) (lat : Lattice)
    (shape : Shape) :
    (foundationPre solve lat shape).size =
      ((find_bounds solve shape lat).2 - (find_bounds solve shape lat).1) + onesI3 ∧
    (foundationPre solve lat shape).size_n = (lat.sublattices.length : ℤ) ∧
    (foundationPre solve lat shape).num_sites =
      (foundationPre solve lat shape).size.a * (foundationPre solve lat shape).size.b *
        (foundationPre solve lat shape).size.c * (foundationPre solve lat shape).size_n ∧
    (foundationPre solve lat shape).positions =
      generate_positions
        (shape.offset + sumV ((List.range lat.vectors.length).map fun i =>
          smulV (((find_bounds solve shape lat).1.comp i : ℤ) : ℚ) (latVec lat i)))
        (foundationPre solve lat shape).size lat ∧
    (foundationPre solve lat shape).is_valid =
      (foundationPre solve lat shape).positions.map shape.contains ∧
    foundationFromShape solve lat shape = trim_edges (foundationPre solve lat shape) := by
  refine ⟨rfl, rfl, ?_, ?_, rfl, rfl⟩
  · show ((find_bounds solve shape lat).2 - (find_bounds solve shape lat).1 + onesI3).a *
      ((find_bounds solve shape lat).2 - (find_bounds solve shape lat).1 + onesI3).b *
      ((find_bounds solve shape lat).2 - (find_bounds solve shape lat).1 + onesI3).c *
      (lat.sublattices.length : ℤ) = _
    rfl
  · show generate_positions
        ((List.range lat.vectors.length).foldl
          (fun p i => p + smulV (((find_bounds solve shape lat).1.comp i : ℤ) : ℚ)
            (latVec lat i))
          shape.offset)
        _ lat = _
    rw [foldl_add_sumV (fun i =>
      smulV (((find_bounds solve shape lat).1.comp i : ℤ) : ℚ) (latVec lat i))]
    rfl

/-! ### Claim C5: `HamiltonianIndices` -/

theorem getD_replicate {α} (n i : ℕ) (x d : α) (h : i < n) :
    (List.replicate n x).getD i d = x := by
  rw [List.getD_eq_getElem _ _ (by simpa using h)]
  simp

theorem countValidUpTo_succ (f : Foundation) (k : ℕ) :
    countValidUpTo f (k + 1) =
      countValidUpTo f k + (if f.is_valid.getD k true = true then 1 else 0) := by
  rw [countValidUpTo, countValidUpTo, List.range_succ, List.countP_append]
  simp [List.countP_cons]

theorem countValidUpTo_mono (f : Foundation) (i j : ℕ) (h : i ≤ j) :
    countValidUpTo f i ≤ countValidUpTo f j :=
  List.Sublist.countP_le _ (List.range_sublist.mpr h)

theorem hi_fold (f : Foundation) :
    ∀ k, k ≤ numSitesNat f →
      ((List.range k).foldl
        (fun acc i =>
          if f.is_valid.getD i true then (acc.1.set i acc.2, acc.2 + 1) else acc)
        (List.replicate (numSitesNat f) (-1), 0)).1.length = numSitesNat f ∧
      ((List.range k).foldl
        (fun acc i =>
          if f.is_valid.getD i true then (acc.1.set i acc.2, acc.2 + 1) else acc)
        (List.replicate (numSitesNat f) (-1), 0)).2 = (countValidUpTo f k : ℤ) ∧
      ∀ i, i < numSitesNat f →
        ((List.range k).foldl
          (fun acc i2 =>
            if f.is_valid.getD i2 true then (acc.1.set i2 acc.2, acc.2 + 1) else acc)
          (List.replicate (numSitesNat f) (-1), 0)).1.getD i 0 =
          (if i < k ∧ f.is_valid.getD i true = true then (countValidUpTo f i : ℤ)
           else -1) := by
  intro k
  induction k with
  | zero =>
    intro _
    refine ⟨by simp, by simp [countValidUpTo], fun i hi => ?_⟩
    rw [List.range_zero, List.foldl_nil]
    simp only [Nat.not_lt_zero, false_and, if_false]
    exact getD_replicate _ _ _ _ hi
  | succ k ih =>
    intro hk
    obtain ⟨hlen, hcnt, hidx⟩ := ih (Nat.le_of_succ_le hk)
    rw [List.range_succ, List.foldl_append, List.foldl_cons, List.foldl_nil]
    by_cases hvk : f.is_valid.getD k true = true
    · rw [if_pos hvk]
      have hkn : k < numSitesNat f := hk
      refine ⟨by simpa using hlen, ?_, fun i hi => ?_⟩
      · show _ + 1 = _
        rw [hcnt, countValidUpTo_succ, if_pos hvk]
        push_cast
        ring
      · show (List.set _ k _).getD i 0 = _
        by_cases hik : k = i
        · subst hik
          rw [getD_set_self _ _ _ _ (by rw [hlen]; exact hkn), hcnt,
            if_pos ⟨Nat.lt_succ_self k, hvk⟩]
        · rw [getD_set_ne _ _ _ _ _ hik, hidx i hi]
          have hiff : (i < k ∧ f.is_valid.getD i true = true) ↔
              (i < k + 1 ∧ f.is_valid.getD i true = true) := by
            constructor
            · rintro ⟨h1, h2⟩; exact ⟨Nat.lt_succ_of_lt h1, h2⟩
            · rintro ⟨h1, h2⟩
              refine ⟨?_, h2⟩
              rcases Nat.lt_succ_iff_lt_or_eq.mp h1 with h | h
              · exact h
              · exact absurd h.symm hik
          by_cases hcond : i < k ∧ f.is_valid.getD i true = true
          · rw [if_pos hcond, if_pos (hiff.mp hcond)]
          · rw [if_neg hcond, if_neg (fun hc => hcond (hiff.mpr hc))]
    · rw [if_neg hvk]
      refine ⟨hlen, ?_, fun i hi => ?_⟩
      · rw [hcnt, countValidUpTo_succ, if_neg hvk]
        norm_num
      · rw [hidx i hi]
        have hvkf : f.is_valid.getD k true = false := by
          cases h : f.is_valid.getD k true
          · rfl
          · exact absurd h hvk
        by_cases hcond : i < k ∧ f.is_valid.getD i true = true
        · rw [if_pos hcond, if_pos ⟨Nat.lt_succ_of_lt hcond.1, hcond.2⟩]
        · rw [if_neg hcond]
          rw [if_neg ?_]
          rintro ⟨h1, h2⟩
          refine hcond ⟨?_, h2⟩
          rcases Nat.lt_succ_iff_lt_or_eq.mp h1 with h | h
          · exact h
          · subst h
            rw [h2] at hvkf
            exact absurd hvkf (by simp)

theorem exists_rank (f : Foundation) :
    ∀ k v, v < countValidUpTo f k →
      ∃ i, i < k ∧ f.is_valid.getD i true = true ∧ countValidUpTo f i = v := by
  intro k
  induction k with
  | zero => intro v hv; simp [countValidUpTo] at hv
  | succ k ih =>
    intro v hv
    rw [countValidUpTo_succ] at hv
    by_cases hvlt : v < countValidUpTo f k
    · obtain ⟨i, hi, hval, hcnt⟩ := ih v hvlt
      exact ⟨i, Nat.lt_succ_of_lt hi, hval, hcnt⟩
    · by_cases hvk : f.is_valid.getD k true = true
      · rw [if_pos hvk] at hv
        have hveq : v = countValidUpTo f k := by omega
        exact ⟨k, Nat.lt_succ_self k, hvk, hveq.symm⟩
      · rw [if_neg hvk] at hv
        omega

theorem countValid_eq_countTrue :
    ∀ l : List Bool, (List.range l.length).countP (fun i => l.getD i true) =
      countTrue l := by
  intro l
  induction l with
  | nil => simp [countTrue]
  | cons x xs ih =>
    rw [List.length_cons, List.range_succ_eq_map, List.countP_cons, List.countP_map]
    have h1 : ((List.range xs.length).countP
        ((fun i => (x :: xs).getD i true) ∘ fun i => i + 1)) =
        (List.range xs.length).countP (fun i => xs.getD i true) := by
      apply List.countP_congr
      intro i _
      rfl
    rw [h1, ih]
    cases x <;> simp [countTrue, List.countP_cons]

/-- C5: `HamiltonianIndices` assigns `indices[i] = number of valid sites with
flat index < i` when site `i` is valid and `-1` otherwise, in one ascending
pass; consequently the non-`(-1)` entries are exactly `[0, num_valid_sites)`
in strictly increasing flat-index order, and `num_valid_sites` is the number
of `true` entries of `is_valid`. -/
theorem claim5_hamiltonian_indices (f : Foundation) :
    (hamiltonianIndices f).1.length = numSitesNat f ∧
    (∀ i, i < numSitesNat f → f.is_valid.getD i true = true →
      (hamiltonianIndices f).1.getD i 0 = (countValidUpTo f i : ℤ)) ∧
    (∀ i, i < numSitesNat f → f.is_valid.getD i true = false →
      (hamiltonianIndices f).1.getD i 0 = -1) ∧
    (hamiltonianIndices f).2 = (countValidUpTo f (numSitesNat f) : ℤ) ∧
    (∀ i j, i < numSitesNat f → j < numSitesNat f → i < j →
      f.is_valid.getD i true = true → f.is_valid.getD j true = true →
      (hamiltonianIndices f).1.getD i 0 < (hamiltonianIndices f).1.getD j 0) ∧
    (∀ i, i < numSitesNat f → f.is_valid.getD i true = true →
      0 ≤ (hamiltonianIndices f).1.getD i 0 ∧
      (hamiltonianIndices f).1.getD i 0 < (hamiltonianIndices f).2) ∧
    (∀ v : ℤ, 0 ≤ v → v < (hamiltonianIndices f).2 →
      ∃ i, i < numSitesNat f ∧ f.is_valid.getD i true = true ∧
        (hamiltonianIndices f).1.getD i 0 = v) ∧
    (f.is_valid.length = numSitesNat f →
      (hamiltonianIndices f).2 = (countTrue f.is_valid : ℤ)) := by
  obtain ⟨hlen, hcnt, hidx⟩ := hi_fold f (numSitesNat f) le_rfl
  have hval : ∀ i, i < numSitesNat f → f.is_valid.getD i true = true →
      (hamiltonianIndices f).1.getD i 0 = (countValidUpTo f i : ℤ) := by
    intro i hi hv
    rw [hamiltonianIndices, hidx i hi, if_pos ⟨hi, hv⟩]
  have hinval : ∀ i, i < numSitesNat f → f.is_valid.getD i true = false →
      (hamiltonianIndices f).1.getD i 0 = -1 := by
    intro i hi hv
    rw [hamiltonianIndices, hidx i hi, if_neg (by rw [hv]; simp)]
  have hstrict : ∀ i j, i ≤ j → f.is_valid.getD i true = true →
      countValidUpTo f (i + 1) ≤ countValidUpTo f (j + 1) ∧
      countValidUpTo f i < countValidUpTo f (i + 1) := by
    intro i j hij hv
    refine ⟨countValidUpTo_mono f _ _ (by omega), ?_⟩
    rw [countValidUpTo_succ, if_pos hv]
    omega
  refine ⟨hlen, hval, hinval, hcnt, ?_, ?_, ?_, ?_⟩
  · intro i j hi hj hij hvi hvj
    rw [hval i hi hvi, hval j hj hvj]
    have h1 := (hstrict i i le_rfl hvi).2
    have h2 : countValidUpTo f (i + 1) ≤ countValidUpTo f j :=
      countValidUpTo_mono f _ _ (by omega)
    omega
  · intro i hi hv
    rw [hval i hi hv, hamiltonianIndices, hcnt]
    have h1 := (hstrict i i le_rfl hv).2
    have h2 : countValidUpTo f (i + 1) ≤ countValidUpTo f (numSitesNat f) :=
      countValidUpTo_mono f _ _ (by omega)
    constructor
    · positivity
    · omega
  · intro v h0 hv
    rw [hamiltonianIndices, hcnt] at hv
    obtain ⟨i, hi, hval2, hcnt2⟩ := exists_rank f (numSitesNat f) v.toNat (by omega)
    refine ⟨i, hi, hval2, ?_⟩
    rw [hval i hi hval2, hcnt2]
    omega
  · intro hl
    rw [hamiltonianIndices, hcnt, countValidUpTo, ← hl, countValid_eq_countTrue]

/-! ### The trimming invariant: basic lemmas -/

theorem clearN_succ_eq (nbrs : ℕ → List ℕ) (minN : ℤ) (fuel s : ℕ) (st : St) :
    clearN nbrs minN (fuel + 1) s st =
      if gc st s = 0 then st
      else zeroc ((nbrs s).foldl (clearStep nbrs minN fuel) st) s := rfl

theorem contrib_gamma (nbrs : ℕ → List ℕ) (st : St) (Γ : Ghost) (j i : ℕ)
    (rem : List ℕ) (h : Γ j = some rem) :
    contrib nbrs st Γ j i = (nbrs j).count i - rem.count i := by
  unfold contrib
  rw [h]

theorem contrib_none (nbrs : ℕ → List ℕ) (st : St) (Γ : Ghost) (j i : ℕ)
    (h : Γ j = none) :
    contrib nbrs st Γ j i =
      if gv st j = false ∧ gc st j = 0 then (nbrs j).count i else 0 := by
  unfold contrib
  rw [h]

theorem contrib_valid (nbrs : ℕ → List ℕ) (st : St) (Γ : Ghost) (j i : ℕ)
    (h : Γ j = none) (hv : gv st j = true) : contrib nbrs st Γ j i = 0 := by
  rw [contrib_none _ _ _ _ _ h, if_neg (by rw [hv]; simp)]

theorem contrib_done (nbrs : ℕ → List ℕ) (st : St) (Γ : Ghost) (j i : ℕ)
    (h : Γ j = none) (hv : gv st j = false) (hc : gc st j = 0) :
    contrib nbrs st Γ j i = (nbrs j).count i := by
  rw [contrib_none _ _ _ _ _ h, if_pos ⟨hv, hc⟩]

theorem contrib_pending (nbrs : ℕ → List ℕ) (st : St) (Γ : Ghost) (j i : ℕ)
    (h : Γ j = none) (hc : gc st j ≠ 0) : contrib nbrs st Γ j i = 0 := by
  rw [contrib_none _ _ _ _ _ h, if_neg (fun hand => hc hand.2)]

theorem updG_self (Γ : Ghost) (s : ℕ) (v : Option (List ℕ)) : updG Γ s v s = v := by
  simp [updG]

theorem updG_ne (Γ : Ghost) (s : ℕ) (v : Option (List ℕ)) (m : ℕ) (h : m ≠ s) :
    updG Γ s v m = Γ m := by
  simp [updG, h]

theorem suffix_of_cons_suffix {α} (a : α) (l l2 : List α)
    (h : (a :: l).IsSuffix l2) : l.IsSuffix l2 := by
  obtain ⟨t, ht⟩ := h
  exact ⟨t ++ [a], by simpa using ht⟩

theorem sum_count_eq_length (n : ℕ) :
    ∀ l : List ℕ, (∀ x ∈ l, x < n) →
      ∑ m ∈ Finset.range n, l.count m = l.length := by
  intro l
  induction l with
  | nil => intro _; simp
  | cons x xs ih =>
    intro h
    have hxn : x < n := h x (by simp)
    have hcount : ∀ m, (x :: xs).count m = xs.count m + if x = m then 1 else 0 := by
      intro m
      rw [List.count_cons]
      simp only [beq_iff_eq]
    calc ∑ m ∈ Finset.range n, (x :: xs).count m
        = ∑ m ∈ Finset.range n, (xs.count m + if x = m then 1 else 0) :=
          Finset.sum_congr rfl (fun m _ => hcount m)
      _ = (∑ m ∈ Finset.range n, xs.count m) +
          ∑ m ∈ Finset.range n, (if x = m then 1 else 0) := Finset.sum_add_distrib
      _ = xs.length + 1 := by
          rw [ih (fun y hy => h y (by simp [hy])), Finset.sum_ite_eq
            (Finset.range n) x (fun _ => 1), if_pos (Finset.mem_range.mpr hxn)]
      _ = (x :: xs).length := by simp

theorem countP_eq_sum_count (n : ℕ) (p : ℕ → Bool) :
    ∀ l : List ℕ, (∀ x ∈ l, x < n) →
      l.countP p = ∑ m ∈ Finset.range n, (if p m then l.count m else 0) := by
  intro l
  induction l with
  | nil => intro _; simp
  | cons x xs ih =>
    intro h
    have hxn : x < n := h x (by simp)
    have hcount : ∀ m, (if p m then (x :: xs).count m else 0) =
        (if p m then xs.count m else 0) + (if x = m then (if p x then 1 else 0) else 0) := by
      intro m
      rw [List.count_cons]
      simp only [beq_iff_eq]
      by_cases hmx : x = m
      · subst hmx
        by_cases hpx : p x = true <;> simp [hpx]
      · simp [hmx]
    rw [List.countP_cons]
    calc xs.countP p + (if p x then 1 else 0)
        = (∑ m ∈ Finset.range n, (if p m then xs.count m else 0)) +
          ∑ m ∈ Finset.range n, (if x = m then (if p x then 1 else 0) else 0) := by
          rw [ih (fun y hy => h y (by simp [hy])), Finset.sum_ite_eq
            (Finset.range n) x (fun _ => if p x then 1 else 0),
            if_pos (Finset.mem_range.mpr hxn)]
      _ = ∑ m ∈ Finset.range n, (if p m then (x :: xs).count m else 0) := by
          rw [← Finset.sum_add_distrib]
          exact (Finset.sum_congr rfl (fun m _ => (hcount m).symm))

theorem Dsum_congr (n : ℕ) (nbrs : ℕ → List ℕ) (st st' : St) (Γ Γ' : Ghost) (i : ℕ)
    (h : ∀ m, m < n → contrib nbrs st Γ m i = contrib nbrs st' Γ' m i) :
    Dsum n nbrs st Γ i = Dsum n nbrs st' Γ' i :=
  Finset.sum_congr rfl (fun m hm => h m (Finset.mem_range.mp hm))

theorem contrib_ext (nbrs : ℕ → List ℕ) (st st' : St) (Γ : Ghost) (m i : ℕ)
    (hgv : gv st m = gv st' m) (hgc : gc st m = gc st' m) :
    contrib nbrs st Γ m i = contrib nbrs st' Γ m i := by
  unfold contrib
  cases Γ m
  · rw [hgv, hgc]
  · rfl

/-- Pushing a fresh activation for `s` (whole neighbour list unprocessed)
does not change the accounting. -/
theorem Dsum_push (n : ℕ) (nbrs : ℕ → List ℕ) (st : St) (Γ : Ghost) (s i : ℕ)
    (hΓs : Γ s = none) (hcs : gc st s ≠ 0) :
    Dsum n nbrs st (updG Γ s (some (nbrs s))) i = Dsum n nbrs st Γ i := by
  refine Dsum_congr _ _ _ _ _ _ _ (fun m _ => ?_)
  by_cases hms : m = s
  · subst hms
    rw [contrib_gamma _ _ _ _ _ _ (updG_self Γ m (some (nbrs m))),
      contrib_pending _ _ _ _ _ hΓs hcs, Nat.sub_self]
  · unfold contrib
    rw [updG_ne _ _ _ _ hms]

/-- Popping a finished activation (empty remainder) and zeroing the site's
count does not change the accounting. -/
theorem Dsum_pop (n : ℕ) (nbrs : ℕ → List ℕ) (st : St) (Γ : Ghost) (s i : ℕ)
    (hΓs : Γ s = none) (hgvs : gv st s = false) (hs : s < st.cnt.length) :
    Dsum n nbrs (zeroc st s) Γ i = Dsum n nbrs st (updG Γ s (some [])) i := by
  refine Dsum_congr _ _ _ _ _ _ _ (fun m _ => ?_)
  by_cases hms : m = s
  · subst hms
    rw [contrib_done _ _ _ _ _ hΓs (by rw [gv_zeroc]; exact hgvs)
      (gc_zeroc_self st m hs),
      contrib_gamma _ _ _ _ _ _ (updG_self Γ m (some []))]
    simp
  · rw [contrib_ext nbrs (zeroc st s) st Γ m i (gv_zeroc st s m)
      (gc_zeroc_ne st s m (fun h => hms h.symm))]
    unfold contrib
    rw [updG_ne _ _ _ _ hms]

/-- Skipping one already-processed occurrence of `j` does not change the
accounting at any site other than `j`. -/
theorem Dsum_tail_ne (n : ℕ) (nbrs : ℕ → List ℕ) (st : St) (Γ : Ghost)
    (s j i : ℕ) (l : List ℕ) (hij : i ≠ j) :
    Dsum n nbrs st (updG Γ s (some (j :: l))) i =
      Dsum n nbrs st (updG Γ s (some l)) i := by
  refine Dsum_congr _ _ _ _ _ _ _ (fun m _ => ?_)
  by_cases hms : m = s
  · subst hms
    rw [contrib_gamma _ _ _ _ _ _ (updG_self Γ m (some (j :: l))),
      contrib_gamma _ _ _ _ _ _ (updG_self Γ m (some l)),
      List.count_cons_of_ne hij]
  · unfold contrib
    rw [updG_ne _ _ _ _ hms, updG_ne _ _ _ _ hms]

/-- The decrement of neighbour `j` moves one occurrence of `j` from the
remainder to the processed prefix: `j`'s accounting grows by exactly 1. -/
theorem Dsum_dec_self (n : ℕ) (nbrs : ℕ → List ℕ) (st : St) (Γ : Ghost)
    (s j : ℕ) (l : List ℕ) (hsn : s < n) (hjs : j ≠ s) (hΓj : Γ j = none)
    (hgvj : gv st j = true) (hcount : (j :: l).count j ≤ (nbrs s).count j) :
    Dsum n nbrs (decc st j) (updG Γ s (some l)) j =
      Dsum n nbrs st (updG Γ s (some (j :: l))) j + 1 := by
  have hterm : ∀ m, m < n → m ≠ s →
      contrib nbrs (decc st j) (updG Γ s (some l)) m j =
        contrib nbrs st (updG Γ s (some (j :: l))) m j := by
    intro m _ hms
    by_cases hmj : m = j
    · subst hmj
      rw [contrib_valid _ _ _ _ _ (by rw [updG_ne _ _ _ _ hms]; exact hΓj)
        (by rw [gv_decc]; exact hgvj),
        contrib_valid _ _ _ _ _ (by rw [updG_ne _ _ _ _ hms]; exact hΓj) hgvj]
    · rw [contrib_ext nbrs (decc st j) st (updG Γ s (some l)) m j
        (gv_decc st j m) (gc_decc_ne st j m (fun h => hmj h.symm))]
      unfold contrib
      rw [updG_ne _ _ _ _ hms, updG_ne _ _ _ _ hms]
  have hsrange : s ∈ Finset.range n := Finset.mem_range.mpr hsn
  rw [Dsum, Dsum, ← Finset.add_sum_erase _ _ hsrange,
    ← Finset.add_sum_erase _ _ hsrange]
  have hrest : ∑ m ∈ (Finset.range n).erase s,
      contrib nbrs (decc st j) (updG Γ s (some l)) m j =
      ∑ m ∈ (Finset.range n).erase s,
        contrib nbrs st (updG Γ s (some (j :: l))) m j :=
    Finset.sum_congr rfl (fun m hm =>
      hterm m (Finset.mem_range.mp (Finset.mem_of_mem_erase hm))
        (Finset.ne_of_mem_erase hm))
  rw [hrest]
  rw [contrib_gamma _ _ _ _ _ _ (updG_self Γ s (some l)),
    contrib_gamma _ _ _ _ _ _ (updG_self Γ s (some (j :: l)))]
  have hc1 : (j :: l).count j = l.count j + 1 := by
    rw [List.count_cons_self]
  omega

/-- The decrement of neighbour `j` does not change the accounting at any
valid site `i ≠ j`. -/
theorem Dsum_dec_ne (n : ℕ) (nbrs : ℕ → List ℕ) (st : St) (Γ : Ghost)
    (s j i : ℕ) (l : List ℕ) (hij : i ≠ j) (hjs : j ≠ s) (hΓj : Γ j = none)
    (hgvj : gv st j = true) :
    Dsum n nbrs (decc st j) (updG Γ s (some l)) i =
      Dsum n nbrs st (updG Γ s (some (j :: l))) i := by
  refine Dsum_congr _ _ _ _ _ _ _ (fun m _ => ?_)
  by_cases hms : m = s
  · subst hms
    rw [contrib_gamma _ _ _ _ _ _ (updG_self Γ m (some l)),
      contrib_gamma _ _ _ _ _ _ (updG_self Γ m (some (j :: l))),
      List.count_cons_of_ne hij]
  · by_cases hmj : m = j
    · subst hmj
      rw [contrib_valid _ _ _ _ _ (by rw [updG_ne _ _ _ _ hms]; exact hΓj)
        (by rw [gv_decc]; exact hgvj),
        contrib_valid _ _ _ _ _ (by rw [updG_ne _ _ _ _ hms]; exact hΓj) hgvj]
    · rw [contrib_ext nbrs (decc st j) st (updG Γ s (some l)) m i
        (gv_decc st j m) (gc_decc_ne st j m (fun h => hmj h.symm))]
      unfold contrib
      rw [updG_ne _ _ _ _ hms, updG_ne _ _ _ _ hms]

/-- Invalidating `j` while its count is nonzero (it will immediately run its
own loop) does not change the accounting. -/
theorem Dsum_invd_pending (n : ℕ) (nbrs : ℕ → List ℕ) (st : St) (Γ : Ghost)
    (j i : ℕ) (hΓj : Γ j = none) (hgvj : gv st j = true) (hcj : gc st j ≠ 0) :
    Dsum n nbrs (invd st j) Γ i = Dsum n nbrs st Γ i := by
  refine Dsum_congr _ _ _ _ _ _ _ (fun m _ => ?_)
  by_cases hmj : m = j
  · subst hmj
    rw [contrib_pending _ _ _ _ _ hΓj (by rw [gc_invd]; exact hcj),
      contrib_valid _ _ _ _ _ hΓj hgvj]
  · exact contrib_ext nbrs (invd st j) st Γ m i
      (gv_invd_ne st j m (fun h => hmj h.symm)) rfl

/-- Invalidating `j` when its count has reached zero changes the accounting
only at sites adjacent to `j`; when `j` has no valid neighbours left, no
valid site's accounting changes. -/
theorem Dsum_invd_done (n : ℕ) (nbrs : ℕ → List ℕ) (st : St) (Γ : Ghost)
    (j i : ℕ) (hΓj : Γ j = none) (hgvj : gv st j = true) (hcj : gc st j = 0)
    (hzero : (nbrs j).count i = 0) (hjlen : j < st.valid.length) :
    Dsum n nbrs (invd st j) Γ i = Dsum n nbrs st Γ i := by
  refine Dsum_congr _ _ _ _ _ _ _ (fun m _ => ?_)
  by_cases hmj : m = j
  · subst hmj
    rw [contrib_done _ _ _ _ _ hΓj (gv_invd_self st m hjlen)
      (by rw [gc_invd]; exact hcj),
      contrib_valid _ _ _ _ _ hΓj hgvj, hzero]
  · exact contrib_ext nbrs (invd st j) st Γ m i
      (gv_invd_ne st j m (fun h => hmj h.symm)) rfl

/-- Core accounting bound: with an occurrence of `j` still unprocessed on top
of the stack for `s`, the decrements absorbed by `j` so far are strictly
fewer than `j`'s occurrences next to invalid sites. -/
theorem Dsum_succ_le_inv (n : ℕ) (nbrs : ℕ → List ℕ) (Hsym : NbrsSym n nbrs)
    (st : St) (Γ : Ghost) (s j : ℕ) (l : List ℕ)
    (hsn : s < n) (hjn : j < n) (hgvs : gv st s = false)
    (hgok : ∀ m rem, updG Γ s (some (j :: l)) m = some rem →
      m < n ∧ gv st m = false ∧ rem.IsSuffix (nbrs m))
    (hjmem : j ∈ nbrs s) :
    Dsum n nbrs st (updG Γ s (some (j :: l))) j + 1 ≤
      ∑ m ∈ Finset.range n, (if gv st m = false then (nbrs j).count m else 0) := by
  have hterm : ∀ m, m ∈ (Finset.range n).erase s →
      contrib nbrs st (updG Γ s (some (j :: l))) m j ≤
        (if gv st m = false then (nbrs j).count m else 0) := by
    intro m hm
    have hmn : m < n := Finset.mem_range.mp (Finset.mem_of_mem_erase hm)
    have hms : m ≠ s := Finset.ne_of_mem_erase hm
    cases hΓ : updG Γ s (some (j :: l)) m with
    | none =>
      rw [contrib_none _ _ _ _ _ hΓ]
      by_cases hcase : gv st m = false ∧ gc st m = 0
      · rw [if_pos hcase, if_pos hcase.1,
          Hsym m (by simp [hmn]) j (by simp [hjn])]
      · rw [if_neg hcase]
        exact Nat.zero_le _
    | some rem =>
      obtain ⟨_, hinv, _⟩ := hgok m rem hΓ
      rw [contrib_gamma _ _ _ _ _ _ hΓ, if_pos hinv,
        ← Hsym m (by simp [hmn]) j (by simp [hjn])]
      exact Nat.sub_le _ _
  have hsterm : contrib nbrs st (updG Γ s (some (j :: l))) s j + 1 ≤
      (if gv st s = false then (nbrs j).count s else 0) := by
    rw [contrib_gamma _ _ _ _ _ _ (updG_self Γ s (some (j :: l))), if_pos hgvs,
      ← Hsym s (by simp [hsn]) j (by simp [hjn])]
    have h1 : 1 ≤ (nbrs s).count j := List.one_le_count_iff.mpr hjmem
    have h2 : (j :: l).count j = l.count j + 1 := List.count_cons_self j l
    omega
  have hsrange : s ∈ Finset.range n := Finset.mem_range.mpr hsn
  rw [Dsum, ← Finset.add_sum_erase _ _ hsrange]
  have hrest := Finset.sum_le_sum hterm
  calc contrib nbrs st (updG Γ s (some (j :: l))) s j +
        (∑ m ∈ (Finset.range n).erase s,
          contrib nbrs st (updG Γ s (some (j :: l))) m j) + 1
      = (contrib nbrs st (updG Γ s (some (j :: l))) s j + 1) +
        ∑ m ∈ (Finset.range n).erase s,
          contrib nbrs st (updG Γ s (some (j :: l))) m j := by ring
    _ ≤ (if gv st s = false then (nbrs j).count s else 0) +
        ∑ m ∈ (Finset.range n).erase s,
          (if gv st m = false then (nbrs j).count m else 0) :=
        Nat.add_le_add hsterm hrest
    _ = ∑ m ∈ Finset.range n, (if gv st m = false then (nbrs j).count m else 0) :=
        Finset.add_sum_erase (Finset.range n)
          (fun m => if gv st m = false then (nbrs j).count m else 0) hsrange

/-- Splitting the occupancy of `nbrs j` into its invalid and valid parts. -/
theorem sum_ite_valid_split (n : ℕ) (st : St) (g : ℕ → ℕ) :
    (∑ m ∈ Finset.range n, (if gv st m = false then g m else 0)) +
      (∑ m ∈ Finset.range n, (if gv st m = true then g m else 0)) =
      ∑ m ∈ Finset.range n, g m := by
  rw [← Finset.sum_add_distrib]
  refine Finset.sum_congr rfl (fun m _ => ?_)
  cases h : gv st m <;> simp [h]

theorem single_le_valid_sum (n : ℕ) (st : St) (g : ℕ → ℕ) (i : ℕ)
    (hin : i < n) (hv : gv st i = true) :
    g i ≤ ∑ m ∈ Finset.range n, (if gv st m = true then g m else 0) := by
  have h := Finset.single_le_sum (f := fun m => if gv st m = true then g m else 0)
    (fun m _ => Nat.zero_le _) (Finset.mem_range.mpr hin)
  simpa [hv] using h

theorem countP_le_valid_sum (n : ℕ) (nbrs : ℕ → List ℕ) (st : St)
    (W : ℕ → Bool) (j : ℕ) (hj : ∀ x ∈ nbrs j, x < n)
    (hWsub : ∀ i, W i = true → gv st i = true) :
    (nbrs j).countP W ≤
      ∑ m ∈ Finset.range n, (if gv st m = true then (nbrs j).count m else 0) := by
  rw [countP_eq_sum_count n W (nbrs j) hj]
  refine Finset.sum_le_sum (fun m _ => ?_)
  by_cases hW : W m = true
  · rw [if_pos hW, if_pos (hWsub m hW)]
  · rw [if_neg hW]
    exact Nat.zero_le _

/-- When `j`'s decremented count reaches exactly 0, every remaining valid
site has no occurrence in `nbrs j` (all of `j`'s neighbours are invalid). -/
theorem valid_count_zero (n : ℕ) (nbrs : ℕ → List ℕ)
    (Hrange : NbrsRange n nbrs) (Hsym : NbrsSym n nbrs)
    (st : St) (Γ : Ghost) (s j : ℕ) (l : List ℕ)
    (hsn : s < n) (hjn : j < n) (hgvs : gv st s = false)
    (hgok : ∀ m rem, updG Γ s (some (j :: l)) m = some rem →
      m < n ∧ gv st m = false ∧ rem.IsSuffix (nbrs m))
    (hjmem : j ∈ nbrs s)
    (hq2 : gc st j = (degN nbrs j : ℤ) -
      (Dsum n nbrs st (updG Γ s (some (j :: l))) j : ℤ))
    (hdec0 : gc st j - 1 = 0) :
    ∀ i, i < n → gv st i = true → (nbrs j).count i = 0 := by
  have hb := Dsum_succ_le_inv n nbrs Hsym st Γ s j l hsn hjn hgvs hgok hjmem
  have hsplit : (∑ m ∈ Finset.range n, (if gv st m = false then (nbrs j).count m else 0)) +
      (∑ m ∈ Finset.range n, (if gv st m = true then (nbrs j).count m else 0)) =
      ∑ m ∈ Finset.range n, (nbrs j).count m :=
    sum_ite_valid_split n st (fun m => (nbrs j).count m)
  have hdeg : ∑ m ∈ Finset.range n, (nbrs j).count m = degN nbrs j :=
    sum_count_eq_length n (nbrs j) (Hrange j (by simp [hjn]))
  intro i hin hvi
  have hone : (nbrs j).count i ≤
      ∑ m ∈ Finset.range n, (if gv st m = true then (nbrs j).count m else 0) :=
    single_le_valid_sum n st (fun m => (nbrs j).count m) i hin hvi
  omega

/-- A member of a trim-stable set `W` of valid sites is never invalidated:
its count cannot fall below `minN` at a decrement. -/
theorem W_member_not_cut (n : ℕ) (nbrs : ℕ → List ℕ) (minN : ℤ)
    (Hrange : NbrsRange n nbrs) (Hsym : NbrsSym n nbrs)
    (W : ℕ → Bool) (HW : StableW n nbrs minN W)
    (st : St) (Γ : Ghost) (s j : ℕ) (l : List ℕ)
    (hsn : s < n) (hjn : j < n) (hgvs : gv st s = false)
    (hgok : ∀ m rem, updG Γ s (some (j :: l)) m = some rem →
      m < n ∧ gv st m = false ∧ rem.IsSuffix (nbrs m))
    (hjmem : j ∈ nbrs s)
    (hWsub : ∀ i, W i = true → gv st i = true)
    (hq2 : gc st j = (degN nbrs j : ℤ) -
      (Dsum n nbrs st (updG Γ s (some (j :: l))) j : ℤ))
    (hlt : gc st j - 1 < minN) (hWj : W j = true) : False := by
  rcases HW j (by simp [hjn]) hWj with hmin | hall
  · have hb := Dsum_succ_le_inv n nbrs Hsym st Γ s j l hsn hjn hgvs hgok hjmem
    have hsplit : (∑ m ∈ Finset.range n, (if gv st m = false then (nbrs j).count m else 0)) +
        (∑ m ∈ Finset.range n, (if gv st m = true then (nbrs j).count m else 0)) =
        ∑ m ∈ Finset.range n, (nbrs j).count m :=
      sum_ite_valid_split n st (fun m => (nbrs j).count m)
    have hdeg : ∑ m ∈ Finset.range n, (nbrs j).count m = degN nbrs j :=
      sum_count_eq_length n (nbrs j) (Hrange j (by simp [hjn]))
    have hcw := countP_le_valid_sum n nbrs st W j
      (fun x hx => Hrange j (by simp [hjn]) x hx) hWsub
    omega
  · have hcs : 1 ≤ (nbrs j).count s := by
      rw [← Hsym s (by simp [hsn]) j (by simp [hjn])]
      exact List.one_le_count_iff.mpr hjmem
    have hsmem : s ∈ nbrs j := List.one_le_count_iff.mp hcs
    have := hWsub s (hall s hsmem)
    rw [hgvs] at this
    exact absurd this (by simp)

theorem getD_false_eq_true {l : List Bool} {i : ℕ} (h : i < l.length) :
    l.getD i false = l.getD i true := by
  rw [List.getD_eq_getElem _ _ h, List.getD_eq_getElem _ _ h]

theorem numValid_le_of_mono (st st' : St) (hlen : st'.valid.length = st.valid.length)
    (hmono : ∀ m, gv st' m = true → gv st m = true) : numValid st' ≤ numValid st := by
  refine countP_pointwise_le st'.valid st.valid hlen (fun i hi hv => ?_)
  rw [getD_false_eq_true (hlen ▸ hi)]
  exact hmono i (by rwa [getD_false_eq_true hi] at hv)

theorem numValid_clearN_le (nbrs : ℕ → List ℕ) (minN : ℤ) (fuel s : ℕ) (st : St) :
    numValid (clearN nbrs minN fuel s st) ≤ numValid st :=
  numValid_le_of_mono st _ (clearN_len nbrs minN fuel s st).1
    (clearN_mono nbrs minN fuel s st)

theorem clearStep_mono (nbrs : ℕ → List ℕ) (minN : ℤ) (fuel : ℕ) (st : St)
    (j m : ℕ) (h : gv (clearStep nbrs minN fuel st j) m = true) : gv st m = true := by
  unfold clearStep at h
  by_cases hgv : gv st j = false
  · rwa [if_pos hgv] at h
  · rw [if_neg hgv] at h
    by_cases hlt : gc (decc st j) j < minN
    · rw [if_pos hlt] at h
      have h2 := clearN_mono nbrs minN fuel j (invd (decc st j) j) m h
      have h3 := gv_invd_le (decc st j) j m h2
      rwa [gv_decc] at h3
    · rwa [if_neg hlt] at h

theorem foldStep_mono (nbrs : ℕ → List ℕ) (minN : ℤ) (fuel : ℕ) :
    ∀ (l : List ℕ) (st : St) (m : ℕ),
      gv (l.foldl (clearStep nbrs minN fuel) st) m = true → gv st m = true := by
  intro l
  induction l with
  | nil => intro st m h; exact h
  | cons j l ih =>
    intro st m h
    rw [List.foldl_cons] at h
    exact clearStep_mono nbrs minN fuel st j m (ih _ m h)

/-- The master lemma for the visitor loop of `clear_neighbors`: processing the
remaining suffix preserves the trimming invariant, only zeroes or preserves
counts of sites that end invalid, preserves membership of any trim-stable set
`W`, and does not increase the number of valid sites. -/
theorem clearList_master (n : ℕ) (nbrs : ℕ → List ℕ) (minN : ℤ)
    (Hrange : NbrsRange n nbrs) (Hsym : NbrsSym n nbrs)
    (W : ℕ → Bool) (HW : StableW n nbrs minN W) (fuel : ℕ)
    (IH : ∀ st Γ s, numValid st < fuel →
      TrimInv n nbrs minN st Γ → s < n → gv st s = false → Γ s = none →
      (∀ i, W i = true → gv st i = true) →
      TrimInv n nbrs minN (clearN nbrs minN fuel s st) Γ ∧
      (∀ j2, gv (clearN nbrs minN fuel s st) j2 = false →
        gc (clearN nbrs minN fuel s st) j2 = 0 ∨
          (gv st j2 = false ∧ gc (clearN nbrs minN fuel s st) j2 = gc st j2)) ∧
      gc (clearN nbrs minN fuel s st) s = 0 ∧
      (∀ i, W i = true → gv (clearN nbrs minN fuel s st) i = true)) :
    ∀ (l : List ℕ) (st : St) (Γ : Ghost) (s : ℕ),
      s < n → gv st s = false → Γ s = none →
      TrimInv n nbrs minN st (updG Γ s (some l)) →
      numValid st ≤ fuel →
      (∀ i, W i = true → gv st i = true) →
      TrimInv n nbrs minN (l.foldl (clearStep nbrs minN fuel) st)
        (updG Γ s (some [])) ∧
      (∀ j2, gv (l.foldl (clearStep nbrs minN fuel) st) j2 = false →
        gc (l.foldl (clearStep nbrs minN fuel) st) j2 = 0 ∨
          (gv st j2 = false ∧
            gc (l.foldl (clearStep nbrs minN fuel) st) j2 = gc st j2)) ∧
      (∀ i, W i = true → gv (l.foldl (clearStep nbrs minN fuel) st) i = true) ∧
      numValid (l.foldl (clearStep nbrs minN fuel) st) ≤ numValid st := by
  intro l
  induction l with
  | nil =>
    intro st Γ s _ _ _ hInv _ hWsub
    exact ⟨hInv, fun j2 hj2 => Or.inr ⟨hj2, rfl⟩, hWsub, le_rfl⟩
  | cons j l ihl =>
    intro st Γ s hsn hgvs hΓs hInv hfuel hWsub
    obtain ⟨hlenv, hlenc, hgok, hq2, hq3⟩ := hInv
    have hsfx : (j :: l).IsSuffix (nbrs s) :=
      (hgok s (j :: l) (updG_self Γ s (some (j :: l)))).2.2
    have hjmem : j ∈ nbrs s := hsfx.sublist.subset (List.mem_cons_self j l)
    have hjn : j < n := Hrange s (by simp [hsn]) j hjmem
    have hlsfx : l.IsSuffix (nbrs s) := suffix_of_cons_suffix j l _ hsfx
    rw [List.foldl_cons]
    by_cases hgvj : gv st j = false
    · -- the neighbour is invalid when visited: skipped
      have hstep : clearStep nbrs minN fuel st j = st := by
        unfold clearStep
        rw [if_pos hgvj]
      rw [hstep]
      have hInv2 : TrimInv n nbrs minN st (updG Γ s (some l)) := by
        refine ⟨hlenv, hlenc, ?_, ?_, ?_⟩
        · intro m rem hm
          by_cases hms : m = s
          · subst hms
            rw [updG_self] at hm
            injection hm with hrem
            subst hrem
            exact ⟨hsn, hgvs, hlsfx⟩
          · rw [updG_ne _ _ _ _ hms] at hm
            exact hgok m rem (by rw [updG_ne _ _ _ _ hms]; exact hm)
        · intro i hin hvi
          have hij : i ≠ j := by
            intro h
            rw [h, hgvj] at hvi
            cases hvi
          rw [← Dsum_tail_ne n nbrs st Γ s j i l hij]
          exact hq2 i hin hvi
        · intro i hin hvi
          have hij : i ≠ j := by
            intro h
            rw [h, hgvj] at hvi
            cases hvi
          rw [← Dsum_tail_ne n nbrs st Γ s j i l hij]
          exact hq3 i hin hvi
      exact ihl st Γ s hsn hgvs hΓs hInv2 hfuel hWsub
    · have hgvjT : gv st j = true := by
        cases h : gv st j
        · exact absurd h hgvj
        · rfl
      have hjs : j ≠ s := by
        intro h
        rw [h, hgvs] at hgvjT
        cases hgvjT
      have hΓj : Γ j = none := by
        cases hΓ : Γ j with
        | none => rfl
        | some rem =>
          have := (hgok j rem (by rw [updG_ne _ _ _ _ hjs]; exact hΓ)).2.1
          rw [hgvjT] at this
          cases this
      have hjclen : j < st.cnt.length := hlenc ▸ hjn
      have hjvlen : j < st.valid.length := hlenv ▸ hjn
      have hdecj : gc (decc st j) j = gc st j - 1 := gc_decc_self st j hjclen
      have hcount_le : (j :: l).count j ≤ (nbrs s).count j :=
        hsfx.sublist.count_le j
      have hq2j := hq2 j hjn hgvjT
      have hgokS : ∀ m rem, updG Γ s (some (j :: l)) m = some rem →
          m < n ∧ gv st m = false ∧ rem.IsSuffix (nbrs m) := hgok
      -- common facts about st1 := decc st j
      have hInv1gok : ∀ m rem, updG Γ s (some l) m = some rem →
          m < n ∧ gv (decc st j) m = false ∧ rem.IsSuffix (nbrs m) := by
        intro m rem hm
        by_cases hms : m = s
        · subst hms
          rw [updG_self] at hm
          injection hm with hrem
          subst hrem
          exact ⟨hsn, by rw [gv_decc]; exact hgvs, hlsfx⟩
        · rw [updG_ne _ _ _ _ hms] at hm
          obtain ⟨h1, h2, h3⟩ := hgok m rem (by rw [updG_ne _ _ _ _ hms]; exact hm)
          exact ⟨h1, by rw [gv_decc]; exact h2, h3⟩
      have hq2dec : ∀ i, i < n → gv (decc st j) i = true →
          gc (decc st j) i = (degN nbrs i : ℤ) -
            (Dsum n nbrs (decc st j) (updG Γ s (some l)) i : ℤ) := by
        intro i hin hvi
        rw [gv_decc] at hvi
        by_cases hij : i = j
        · subst hij
          rw [hdecj, Dsum_dec_self n nbrs st Γ s i l hsn
            (by exact hjs) hΓj hvi hcount_le, hq2 i hin hvi]
          push_cast
          ring
        · rw [gc_decc_ne st j i (fun h => hij h.symm),
            Dsum_dec_ne n nbrs st Γ s j i l hij hjs hΓj hgvjT]
          exact hq2 i hin hvi
      by_cases hlt : gc (decc st j) j < minN
      · -- the decrement falls below the threshold: invalidate and recurse
        have hstep : clearStep nbrs minN fuel st j =
            clearN nbrs minN fuel j (invd (decc st j) j) := by
          unfold clearStep
          rw [if_neg hgvj, if_pos hlt]
        rw [hstep]
        have hWj : W j = false := by
          cases hW : W j
          · rfl
          · exact (W_member_not_cut n nbrs minN Hrange Hsym W HW st Γ s j l hsn
              hjn hgvs hgokS hjmem hWsub hq2j (by rw [← hdecj]; exact hlt) hW).elim
        have hst2vj : gv (invd (decc st j) j) j = false :=
          gv_invd_self (decc st j) j (by simpa [decc] using hjvlen)
        have hst2gv : ∀ m, m ≠ j → gv (invd (decc st j) j) m = gv st m := by
          intro m hm
          rw [gv_invd_ne _ _ _ (fun h => hm h.symm), gv_decc]
        have hst2gc : ∀ m, m ≠ j → gc (invd (decc st j) j) m = gc st m := by
          intro m hm
          rw [gc_invd, gc_decc_ne st j m (fun h => hm h.symm)]
        -- the invariant carries over to the invalidated state
        have hDsum2 : ∀ i, i < n → i ≠ j → gv st i = true →
            Dsum n nbrs (invd (decc st j) j) (updG Γ s (some l)) i =
              Dsum n nbrs st (updG Γ s (some (j :: l))) i := by
          intro i hin hij hvi
          have hΓlj : updG Γ s (some l) j = none := by
            rw [updG_ne _ _ _ _ hjs]
            exact hΓj
          by_cases hz2 : gc (decc st j) j = 0
          · have hzero := valid_count_zero n nbrs Hrange Hsym st Γ s j l hsn hjn
              hgvs hgokS hjmem hq2j (by rw [← hdecj]; exact hz2) i hin hvi
            rw [Dsum_invd_done n nbrs (decc st j) (updG Γ s (some l)) j i hΓlj
              (by rw [gv_decc]; exact hgvjT) hz2 hzero
              (by simpa [decc] using hjvlen)]
            exact Dsum_dec_ne n nbrs st Γ s j i l hij hjs hΓj hgvjT
          · rw [Dsum_invd_pending n nbrs (decc st j) (updG Γ s (some l)) j i hΓlj
              (by rw [gv_decc]; exact hgvjT) hz2]
            exact Dsum_dec_ne n nbrs st Γ s j i l hij hjs hΓj hgvjT
        have hInv2 : TrimInv n nbrs minN (invd (decc st j) j) (updG Γ s (some l)) := by
          refine ⟨by simpa [invd, decc] using hlenv, by simpa [invd, decc] using hlenc,
            ?_, ?_, ?_⟩
          · intro m rem hm
            obtain ⟨h1, h2, h3⟩ := hInv1gok m rem hm
            refine ⟨h1, ?_, h3⟩
            by_cases hmj : m = j
            · subst hmj
              exact hst2vj
            · rw [gv_invd_ne _ _ _ (fun h => hmj h.symm)]
              exact h2
          · intro i hin hvi
            have hij : i ≠ j := by
              intro h
              rw [h, hst2vj] at hvi
              cases hvi
            have hvi0 : gv st i = true := by
              rw [← hst2gv i hij]
              exact hvi
            rw [hst2gc i hij, hDsum2 i hin hij hvi0]
            exact hq2 i hin hvi0
          · intro i hin hvi
            have hij : i ≠ j := by
              intro h
              rw [h, hst2vj] at hvi
              cases hvi
            have hvi0 : gv st i = true := by
              rw [← hst2gv i hij]
              exact hvi
            rw [hst2gc i hij, hDsum2 i hin hij hvi0]
            exact hq3 i hin hvi0
        have hnum1 : numValid (decc st j) = numValid st := rfl
        have hnum2 : numValid (invd (decc st j) j) + 1 = numValid st := by
          rw [← hnum1]
          exact numValid_invd (decc st j) j (by simpa [decc] using hjvlen)
            (by rw [gv_decc]; exact hgvjT)
        have hWsub2 : ∀ i, W i = true → gv (invd (decc st j) j) i = true := by
          intro i hWi
          have hij : i ≠ j := by
            intro h
            rw [h, hWj] at hWi
            cases hWi
          rw [hst2gv i hij]
          exact hWsub i hWi
        have hIHres := IH (invd (decc st j) j) (updG Γ s (some l)) j
          (by omega) hInv2 hjn hst2vj
          (by rw [updG_ne _ _ _ _ hjs]; exact hΓj) hWsub2
        obtain ⟨hInv3, hP33, hgc3j, hWsub3⟩ := hIHres
        set st3 := clearN nbrs minN fuel j (invd (decc st j) j) with hst3
        have hmono3 : ∀ m, gv st3 m = true → gv (invd (decc st j) j) m = true :=
          clearN_mono nbrs minN fuel j (invd (decc st j) j)
        have hgv3s : gv st3 s = false := by
          cases h : gv st3 s
          · rfl
          · have h2 := hmono3 s h
            rw [hst2gv s (Ne.symm hjs), hgvs] at h2
            cases h2
        have hnum3 : numValid st3 ≤ numValid (invd (decc st j) j) :=
          numValid_clearN_le nbrs minN fuel j (invd (decc st j) j)
        have hres := ihl st3 Γ s hsn hgv3s hΓs hInv3 (by omega) hWsub3
        obtain ⟨hres1, hres2, hres3, hres4⟩ := hres
        refine ⟨hres1, ?_, hres3, by omega⟩
        intro j2 hj2
        rcases hres2 j2 hj2 with h0 | ⟨hj2inv, hj2eq⟩
        · exact Or.inl h0
        · by_cases hj2j : j2 = j
          · subst hj2j
            rw [hj2eq, hgc3j]
            exact Or.inl rfl
          · rcases hP33 j2 hj2inv with h0 | ⟨hj2inv2, hj2eq2⟩
            · rw [hj2eq]
              exact Or.inl h0
            · refine Or.inr ⟨?_, ?_⟩
              · rw [← hst2gv j2 hj2j]
                exact hj2inv2
              · rw [hj2eq, hj2eq2, hst2gc j2 hj2j]
      · -- the decrement stays at or above the threshold
        have hstep : clearStep nbrs minN fuel st j = decc st j := by
          unfold clearStep
          rw [if_neg hgvj, if_neg hlt]
        rw [hstep]
        have hInv1 : TrimInv n nbrs minN (decc st j) (updG Γ s (some l)) := by
          refine ⟨by simpa [decc] using hlenv, by simpa [decc] using hlenc,
            hInv1gok, hq2dec, ?_⟩
          intro i hin hvi
          by_cases hij : i = j
          · subst hij
            left
            omega
          · rw [gv_decc] at hvi
            rw [gc_decc_ne st j i (fun h => hij h.symm),
              Dsum_dec_ne n nbrs st Γ s j i l hij hjs hΓj hgvjT]
            exact hq3 i hin hvi
        have hres := ihl (decc st j) Γ s hsn (by rw [gv_decc]; exact hgvs) hΓs
          hInv1 (by rw [show numValid (decc st j) = numValid st from rfl]; exact hfuel)
          (fun i hWi => by rw [gv_decc]; exact hWsub i hWi)
        obtain ⟨hres1, hres2, hres3, hres4⟩ := hres
        refine ⟨hres1, ?_, hres3,
          by rw [show numValid (decc st j) = numValid st from rfl] at hres4; exact hres4⟩
        intro j2 hj2
        rcases hres2 j2 hj2 with h0 | ⟨hj2inv, hj2eq⟩
        · exact Or.inl h0
        · have hj2j : j2 ≠ j := by
            intro h
            rw [h, gv_decc, hgvjT] at hj2inv
            cases hj2inv
          refine Or.inr ⟨by rw [← gv_decc st j j2]; exact hj2inv, ?_⟩
          rw [hj2eq, gc_decc_ne st j j2 (fun h => hj2j h.symm)]

/-- The master lemma for `clear_neighbors`: invoked on an invalid site with
sufficient fuel, it preserves the trimming invariant, leaves every
still-invalid site's count either zeroed or untouched, zeroes the site's own
count, and preserves membership of any trim-stable set `W`. -/
theorem clearN_master (n : ℕ) (nbrs : ℕ → List ℕ) (minN : ℤ)
    (Hrange : NbrsRange n nbrs) (Hsym : NbrsSym n nbrs)
    (W : ℕ → Bool) (HW : StableW n nbrs minN W) :
    ∀ fuel st Γ s, numValid st < fuel →
      TrimInv n nbrs minN st Γ → s < n → gv st s = false → Γ s = none →
      (∀ i, W i = true → gv st i = true) →
      TrimInv n nbrs minN (clearN nbrs minN fuel s st) Γ ∧
      (∀ j2, gv (clearN nbrs minN fuel s st) j2 = false →
        gc (clearN nbrs minN fuel s st) j2 = 0 ∨
          (gv st j2 = false ∧ gc (clearN nbrs minN fuel s st) j2 = gc st j2)) ∧
      gc (clearN nbrs minN fuel s st) s = 0 ∧
      (∀ i, W i = true → gv (clearN nbrs minN fuel s st) i = true) := by
  intro fuel
  induction fuel with
  | zero =>
    intro st Γ s hfuel
    exact absurd hfuel (by omega)
  | succ fuel ihf =>
    intro st Γ s hfuel hInv hsn hgvs hΓs hWsub
    rw [clearN_succ_eq]
    by_cases hz : gc st s = 0
    · rw [if_pos hz]
      exact ⟨hInv, fun j2 hj2 => Or.inr ⟨hj2, rfl⟩, hz, hWsub⟩
    · rw [if_neg hz]
      obtain ⟨hlenv, hlenc, hgok, hq2, hq3⟩ := hInv
      have hInvPush : TrimInv n nbrs minN st (updG Γ s (some (nbrs s))) := by
        refine ⟨hlenv, hlenc, ?_, ?_, ?_⟩
        · intro m rem hm
          by_cases hms : m = s
          · subst hms
            rw [updG_self] at hm
            injection hm with hrem
            subst hrem
            exact ⟨hsn, hgvs, List.suffix_refl _⟩
          · rw [updG_ne _ _ _ _ hms] at hm
            exact hgok m rem hm
        · intro i hin hvi
          rw [Dsum_push n nbrs st Γ s i hΓs hz]
          exact hq2 i hin hvi
        · intro i hin hvi
          rw [Dsum_push n nbrs st Γ s i hΓs hz]
          exact hq3 i hin hvi
      have hres := clearList_master n nbrs minN Hrange Hsym W HW fuel ihf
        (nbrs s) st Γ s hsn hgvs hΓs hInvPush (by omega) hWsub
      obtain ⟨hres1, hres2, hres3, _⟩ := hres
      set stF := (nbrs s).foldl (clearStep nbrs minN fuel) st with hstF
      have hgvFs : gv stF s = false := by
        cases h : gv stF s
        · rfl
        · have := foldStep_mono nbrs minN fuel (nbrs s) st s h
          rw [hgvs] at this
          cases this
      obtain ⟨hlenvF, hlencF, hgokF, hq2F, hq3F⟩ := hres1
      have hslenF : s < stF.cnt.length := hlencF ▸ hsn
      refine ⟨⟨by simpa [zeroc] using hlenvF, by simpa [zeroc] using hlencF,
        ?_, ?_, ?_⟩, ?_, gc_zeroc_self stF s hslenF, ?_⟩
      · intro m rem hm
        have hms : m ≠ s := by
          intro h
          rw [h, hΓs] at hm
          cases hm
        obtain ⟨h1, h2, h3⟩ := hgokF m rem (by rw [updG_ne _ _ _ _ hms]; exact hm)
        exact ⟨h1, by rw [gv_zeroc]; exact h2, h3⟩
      · intro i hin hvi
        rw [gv_zeroc] at hvi
        have his : i ≠ s := by
          intro h
          rw [h, hgvFs] at hvi
          cases hvi
        rw [gc_zeroc_ne stF s i (fun h => his h.symm),
          Dsum_pop n nbrs stF Γ s i hΓs hgvFs hslenF]
        exact hq2F i hin hvi
      · intro i hin hvi
        rw [gv_zeroc] at hvi
        have his : i ≠ s := by
          intro h
          rw [h, hgvFs] at hvi
          cases hvi
        rw [gc_zeroc_ne stF s i (fun h => his h.symm),
          Dsum_pop n nbrs stF Γ s i hΓs hgvFs hslenF]
        exact hq3F i hin hvi
      · intro j2 hj2
        rw [gv_zeroc] at hj2
        by_cases hj2s : j2 = s
        · subst hj2s
          rw [gc_zeroc_self stF j2 hslenF]
          exact Or.inl rfl
        · rw [gc_zeroc_ne stF s j2 (fun h => hj2s h.symm)]
          exact hres2 j2 hj2
      · intro i hWi
        rw [gv_zeroc]
        exact hres3 i hWi

theorem trimOrd_mono (nbrs : ℕ → List ℕ) (minN : ℤ) :
    ∀ (ord : List ℕ) (st : St) (m : ℕ),
      gv (trimOrd nbrs minN ord st) m = true → gv st m = true := by
  intro ord
  induction ord with
  | nil => intro st m h; exact h
  | cons i ord ih =>
    intro st m h
    rw [trimOrd, List.foldl_cons] at h
    by_cases hgv : gv st i = false
    · rw [if_pos hgv] at h
      exact clearN_mono nbrs minN _ i st m (ih _ m h)
    · rw [if_neg hgv] at h
      exact ih _ m h

theorem trimOrd_len (nbrs : ℕ → List ℕ) (minN : ℤ) :
    ∀ (ord : List ℕ) (st : St),
      (trimOrd nbrs minN ord st).valid.length = st.valid.length ∧
      (trimOrd nbrs minN ord st).cnt.length = st.cnt.length := by
  intro ord
  induction ord with
  | nil => intro st; exact ⟨rfl, rfl⟩
  | cons i ord ih =>
    intro st
    rw [trimOrd, List.foldl_cons]
    by_cases hgv : gv st i = false
    · rw [if_pos hgv]
      have h1 := ih (clearN nbrs minN (numValid st + 1) i st)
      have h2 := clearN_len nbrs minN (numValid st + 1) i st
      rw [trimOrd] at h1
      exact ⟨h1.1.trans h2.1, h1.2.trans h2.2⟩
    · rw [if_neg hgv]
      have h1 := ih st
      rw [trimOrd] at h1
      exact h1

/-- The master lemma for the `trim_edges` driver loop: after visiting every
site of `ord`, the invariant still holds, every invalid site's count is
zeroed (it has run its loop), and trim-stable sets survive. -/
theorem trimOrd_master (n : ℕ) (nbrs : ℕ → List ℕ) (minN : ℤ)
    (Hrange : NbrsRange n nbrs) (Hsym : NbrsSym n nbrs)
    (W : ℕ → Bool) (HW : StableW n nbrs minN W) :
    ∀ (ord : List ℕ) (st : St),
      (∀ i ∈ ord, i < n) →
      TrimInv n nbrs minN st emptyG →
      (∀ j, j < n → gv st j = false →
        gc st j = 0 ∨ (gc st j = (degN nbrs j : ℤ) ∧ j ∈ ord)) →
      (∀ i, W i = true → gv st i = true) →
      TrimInv n nbrs minN (trimOrd nbrs minN ord st) emptyG ∧
      (∀ j, j < n → gv (trimOrd nbrs minN ord st) j = false →
        gc (trimOrd nbrs minN ord st) j = 0) ∧
      (∀ i, W i = true → gv (trimOrd nbrs minN ord st) i = true) := by
  intro ord
  induction ord with
  | nil =>
    intro st _ hInv hdone hWsub
    refine ⟨hInv, fun j hjn hj => ?_, hWsub⟩
    rcases hdone j hjn hj with h0 | ⟨_, hmem⟩
    · exact h0
    · cases hmem
  | cons i ord ih =>
    intro st hord hInv hdone hWsub
    rw [trimOrd, List.foldl_cons]
    have hin : i < n := hord i (by simp)
    by_cases hgv : gv st i = false
    · rw [if_pos hgv]
      have hmaster := clearN_master n nbrs minN Hrange Hsym W HW
        (numValid st + 1) st emptyG i (by omega) hInv hin hgv rfl hWsub
      obtain ⟨hInv2, hP3, hgci, hWsub2⟩ := hmaster
      set st2 := clearN nbrs minN (numValid st + 1) i st with hst2
      have hdone2 : ∀ j, j < n → gv st2 j = false →
          gc st2 j = 0 ∨ (gc st2 j = (degN nbrs j : ℤ) ∧ j ∈ ord) := by
        intro j hjn hj
        rcases hP3 j hj with h0 | ⟨hjold, hjeq⟩
        · exact Or.inl h0
        · rcases hdone j hjn hjold with h0 | ⟨hdeg, hmem⟩
          · rw [hjeq]
            exact Or.inl h0
          · by_cases hji : j = i
            · subst hji
              exact Or.inl hgci
            · refine Or.inr ⟨by rw [hjeq]; exact hdeg, ?_⟩
              rcases List.mem_cons.mp hmem with h | h
              · exact absurd h hji
              · exact h
      have hres := ih st2 (fun x hx => hord x (by simp [hx])) hInv2 hdone2 hWsub2
      rw [trimOrd] at hres
      exact hres
    · rw [if_neg hgv]
      have hgvT : gv st i = true := by
        cases h : gv st i
        · exact absurd h hgv
        · rfl
      have hdone2 : ∀ j, j < n → gv st j = false →
          gc st j = 0 ∨ (gc st j = (degN nbrs j : ℤ) ∧ j ∈ ord) := by
        intro j hjn hj
        rcases hdone j hjn hj with h0 | ⟨hdeg, hmem⟩
        · exact Or.inl h0
        · refine Or.inr ⟨hdeg, ?_⟩
          rcases List.mem_cons.mp hmem with h | h
          · rw [h, hgvT] at hj
            cases hj
          · exact h
      have hres := ih st (fun x hx => hord x (by simp [hx])) hInv hdone2 hWsub
      rw [trimOrd] at hres
      exact hres

/-- At a stabilised state (invariant holds, every invalid site has run its
loop), every valid site either has at least `minN` valid neighbour
occurrences or all its neighbours are valid. -/
theorem trim_final_prop (n : ℕ) (nbrs : ℕ → List ℕ) (minN : ℤ)
    (Hrange : NbrsRange n nbrs) (Hsym : NbrsSym n nbrs) (st : St)
    (hInv : TrimInv n nbrs minN st emptyG)
    (hdone : ∀ j, j < n → gv st j = false → gc st j = 0) :
    ∀ i, i < n → gv st i = true →
      minN ≤ ((nbrs i).countP (fun m => gv st m) : ℤ) ∨
        ∀ m ∈ nbrs i, gv st m = true := by
  intro i hin hvi
  have hD : Dsum n nbrs st emptyG i =
      (nbrs i).countP (fun m => !gv st m) := by
    rw [countP_eq_sum_count n (fun m => !gv st m) (nbrs i)
      (fun x hx => Hrange i (by simp [hin]) x hx), Dsum]
    refine Finset.sum_congr rfl (fun m hm => ?_)
    have hmn : m < n := Finset.mem_range.mp hm
    rw [contrib_none _ _ _ _ _ rfl]
    cases hgvm : gv st m
    · rw [if_pos ⟨rfl, hdone m hmn hgvm⟩, if_pos (show (!false) = true from rfl),
        Hsym m (by simp [hmn]) i (by simp [hin])]
    · rw [if_neg (show ¬(true = false ∧ gc st m = 0) from fun h => by cases h.1),
        if_neg (show ¬((!true) = true) by simp)]
  have hsplit : (nbrs i).countP (fun m => gv st m) +
      (nbrs i).countP (fun m => !gv st m) = (nbrs i).length := by
    rw [List.countP_eq_length_filter, List.countP_eq_length_filter,
      ← List.length_append, ← List.filter_append_perm (fun m => gv st m) (nbrs i) |>.length_eq]
  rcases hInv.q3 i hin hvi with hge | h0
  · left
    have hq2 := hInv.q2 i hin hvi
    rw [hD] at hq2
    have hdeg : degN nbrs i = (nbrs i).length := rfl
    omega
  · right
    intro m hm
    rw [hD] at h0
    have := List.countP_eq_zero.mp h0 m hm
    cases hgvm : gv st m
    · rw [hgvm] at this
      simp at this
    · rfl

theorem trimInv_init (n : ℕ) (nbrs : ℕ → List ℕ) (minN : ℤ) (st : St)
    (hlenv : st.valid.length = n) (hlenc : st.cnt.length = n)
    (hcnt : ∀ j, j < n → gc st j = (degN nbrs j : ℤ)) :
    TrimInv n nbrs minN st emptyG := by
  have hD : ∀ i, Dsum n nbrs st emptyG i = 0 := by
    intro i
    refine Finset.sum_eq_zero (fun m hm => ?_)
    have hmn := Finset.mem_range.mp hm
    rw [contrib_none _ _ _ _ _ rfl]
    by_cases hc : gv st m = false ∧ gc st m = 0
    · rw [if_pos hc]
      have hdeg0 : (degN nbrs m : ℤ) = 0 := by
        rw [← hcnt m hmn]
        exact hc.2
      have hnil : nbrs m = [] := by
        have : degN nbrs m = 0 := by exact_mod_cast hdeg0
        exact List.length_eq_zero.mp this
      rw [hnil]
      rfl
    · rw [if_neg hc]
  refine ⟨hlenv, hlenc, (fun m rem hm => by cases hm), ?_, ?_⟩
  · intro i hin _
    rw [hD i, hcnt i hin]
    simp
  · intro i _ _
    exact Or.inr (hD i)

theorem length_filterMap_ite {α β} (p : α → Bool) (g : α → β) :
    ∀ l : List α,
      (l.filterMap (fun a => if p a then some (g a) else none)).length = l.countP p := by
  intro l
  induction l with
  | nil => rfl
  | cons x xs ih =>
    rw [List.filterMap_cons, List.countP_cons]
    by_cases hp : p x = true
    · rw [if_pos hp, if_pos hp, List.length_cons, ih]
    · rw [if_neg hp, if_neg hp, ih]
      simp

theorem countP_not_add {α} (p : α → Bool) (l : List α) :
    l.countP (fun a => !p a) + l.countP p = l.length := by
  induction l with
  | nil => rfl
  | cons x xs ih =>
    rw [List.countP_cons, List.countP_cons, List.length_cons]
    cases hp : p x <;> simp [hp] <;> omega

theorem count_neighbors_eq_deg (f : Foundation) (j : ℕ) (hj : j < numSitesNat f) :
    (count_neighbors f).getD j 0 = (degN (nbrsF f) j : ℤ) := by
  rw [count_neighbors, getD_map_range _ _ _ _ hj,
    foldl_sub_countP (fun h : Hopping =>
      inBox f.size (siteIndex f j + h.relative_index))]
  have hdeg : degN (nbrsF f) j = (siteSublattice f j).hoppings.countP
      (fun h => inBox f.size (siteIndex f j + h.relative_index)) := by
    rw [degN, nbrsF]
    exact length_filterMap_ite _ _ _
  rw [hdeg]
  have := countP_not_add (fun h : Hopping =>
    inBox f.size (siteIndex f j + h.relative_index)) (siteSublattice f j).hoppings
  omega

theorem gen_pos_length (origin : V3) (size : I3) (lat : Lattice) :
    (generate_positions origin size lat).length =
      size.a.toNat * (size.b.toNat * (size.c.toNat * lat.sublattices.length)) := by
  rw [generate_positions]
  rw [length_flatMap_const _ (size.b.toNat * (size.c.toNat * lat.sublattices.length))]
  · rw [List.length_range]
  · intro a _
    rw [length_flatMap_const _ (size.c.toNat * lat.sublattices.length)]
    · rw [List.length_range]
    · intro b _
      rw [length_flatMap_const _ lat.sublattices.length]
      · rw [List.length_range]
      · intro c _
        exact List.length_map _ _

theorem foundationPre_valid_length (solve : List V3 → V3 → V3) (lat : Lattice)
    (shape : Shape) :
    (foundationPre solve lat shape).is_valid.length =
      numSitesNat (foundationPre solve lat shape) := by
  show ((generate_positions _ _ lat).map shape.contains).length = _
  rw [List.length_map, gen_pos_length]
  rfl

/-- Any covering run of the driver loop, started on structural counts,
reaches a state where every valid site has `minN` valid neighbour occurrences
or only valid neighbours. -/
theorem trim_run_core (n : ℕ) (nbrs : ℕ → List ℕ) (minN : ℤ)
    (Hrange : NbrsRange n nbrs) (Hsym : NbrsSym n nbrs) (st0 : St) (ord : List ℕ)
    (hord : ∀ i ∈ ord, i < n) (hcov : ∀ j, j < n → j ∈ ord)
    (hlenv : st0.valid.length = n) (hlenc : st0.cnt.length = n)
    (hcnt : ∀ j, j < n → gc st0 j = (degN nbrs j : ℤ)) :
    ∀ i, i < n → gv (trimOrd nbrs minN ord st0) i = true →
      minN ≤ ((nbrs i).countP (fun m => gv (trimOrd nbrs minN ord st0) m) : ℤ) ∨
        ∀ m ∈ nbrs i, gv (trimOrd nbrs minN ord st0) m = true := by
  have hInv0 := trimInv_init n nbrs minN st0 hlenv hlenc hcnt
  have hdone0 : ∀ j, j < n → gv st0 j = false →
      gc st0 j = 0 ∨ (gc st0 j = (degN nbrs j : ℤ) ∧ j ∈ ord) :=
    fun j hjn _ => Or.inr ⟨hcnt j hjn, hcov j hjn⟩
  have hres := trimOrd_master n nbrs minN Hrange Hsym (fun _ => false)
    (fun i _ hW => by cases hW) ord st0 hord hInv0 hdone0 (fun i hW => by cases hW)
  exact trim_final_prop n nbrs minN Hrange Hsym _ hres.1 hres.2.1

/-- Any covering run of the driver loop preserves a trim-stable set of
initially valid sites. -/
theorem trim_run_W (n : ℕ) (nbrs : ℕ → List ℕ) (minN : ℤ)
    (Hrange : NbrsRange n nbrs) (Hsym : NbrsSym n nbrs)
    (W : ℕ → Bool) (HW : StableW n nbrs minN W) (st0 : St) (ord : List ℕ)
    (hord : ∀ i ∈ ord, i < n) (hcov : ∀ j, j < n → j ∈ ord)
    (hlenv : st0.valid.length = n) (hlenc : st0.cnt.length = n)
    (hcnt : ∀ j, j < n → gc st0 j = (degN nbrs j : ℤ))
    (hWsub : ∀ i, W i = true → gv st0 i = true) :
    ∀ i, W i = true → gv (trimOrd nbrs minN ord st0) i = true := by
  have hInv0 := trimInv_init n nbrs minN st0 hlenv hlenc hcnt
  have hdone0 : ∀ j, j < n → gv st0 j = false →
      gc st0 j = 0 ∨ (gc st0 j = (degN nbrs j : ℤ) ∧ j ∈ ord) :=
    fun j hjn _ => Or.inr ⟨hcnt j hjn, hcov j hjn⟩
  exact (trimOrd_master n nbrs minN Hrange Hsym W HW ord st0 hord hInv0 hdone0
    hWsub).2.2

/-- The valid set of a stabilised state is trim-stable. -/
theorem stableW_of_final (n : ℕ) (nbrs : ℕ → List ℕ) (minN : ℤ)
    (Hrange : NbrsRange n nbrs) (st : St)
    (hfin : ∀ i, i < n → gv st i = true →
      minN ≤ ((nbrs i).countP (fun m => gv st m) : ℤ) ∨
        ∀ m ∈ nbrs i, gv st m = true) :
    StableW n nbrs minN (fun i => decide (i < n) && gv st i) := by
  intro i hi hWi
  simp only [Bool.and_eq_true, decide_eq_true_eq] at hWi
  obtain ⟨hin, hvi⟩ := hWi
  rcases hfin i hin hvi with hge | hall
  · left
    have hcong : (nbrs i).countP (fun m => decide (m < n) && gv st m) =
        (nbrs i).countP (fun m => gv st m) := by
      refine List.countP_congr (fun m hm => ?_)
      have hmn : m < n := Hrange i (by simp [hin]) m hm
      simp [hmn]
    rw [hcong]
    exact hge
  · right
    intro m hm
    have hmn : m < n := Hrange i (by simp [hin]) m hm
    simp [hmn, hall m hm]

theorem bool_eq_of_imp (a b : Bool) (h1 : a = true → b = true)
    (h2 : b = true → a = true) : a = b := by
  cases a <;> cases b <;> simp_all

/-! ### Claim C1: the minimum-neighbour property after trimming -/

/-- The per-foundation core: after `trim_edges`, every valid site has at
least `min_neighbours` valid in-box neighbours or only valid neighbours. -/
theorem trim_edges_valid_spec (f : Foundation)
    (hlen : f.is_valid.length = numSitesNat f)
    (Hrange : NbrsRange (numSitesNat f) (nbrsF f))
    (Hsym : NbrsSym (numSitesNat f) (nbrsF f)) :
    ∀ i, i < numSitesNat f → (trim_edges f).is_valid.getD i true = true →
      f.lattice.min_neighbours ≤ (validNbrCount (trim_edges f) i : ℤ) ∨
        ∀ m ∈ nbrsF f i, (trim_edges f).is_valid.getD m true = true := by
  have hlenc : (count_neighbors f).length = numSitesNat f := by
    rw [count_neighbors, List.length_map, List.length_range]
  have hres := trim_run_core (numSitesNat f) (nbrsF f) f.lattice.min_neighbours
    Hrange Hsym ⟨f.is_valid, count_neighbors f⟩ (List.range (numSitesNat f))
    (fun i hi => List.mem_range.mp hi) (fun j hj => List.mem_range.mpr hj)
    hlen hlenc (fun j hj => count_neighbors_eq_deg f j hj)
  exact hres

/-- C1, counterexample: for the 1D chain lattice with `min_neighbours = 2`
and a shape whose containment test accepts every generated position, no site
is ever invalid, `trim_edges` does nothing, and the boundary site 0 of the
resulting Foundation is valid with only one valid in-box neighbour. -/
theorem claim1_counterexample :
    (foundationFromShape idSolve latChain2 shapeAll).is_valid.getD 0 true = true ∧
    ((validNbrCount (foundationFromShape idSolve latChain2 shapeAll) 0 : ℤ) <
      latChain2.min_neighbours) := by
  with_unfolding_all decide

/-- C1, amended: for every Foundation built from a Shape (symmetric in-range
neighbour map, as real lattices provide), after `trim_edges` every site that
is valid and has at least one invalid in-box neighbour has at least
`lattice.min_neighbours` valid in-box neighbours, the count re-derived from
the hopping rules and the final `is_valid` array.  (A valid site all of whose
in-box neighbours are valid is never re-examined by the pass and may keep
fewer than `min_neighbours` neighbours.) -/
theorem claim1_amended (solve : List V3 → V3 → V3) (lat : Lattice) (shape : Shape)
    (Hrange : NbrsRange (numSitesNat (foundationPre solve lat shape))
      (nbrsF (foundationPre solve lat shape)))
    (Hsym : NbrsSym (numSitesNat (foundationPre solve lat shape))
      (nbrsF (foundationPre solve lat shape))) :
    ∀ i, i < numSitesNat (foundationFromShape solve lat shape) →
      (foundationFromShape solve lat shape).is_valid.getD i true = true →
      (∃ j ∈ nbrsF (foundationFromShape solve lat shape) i,
        (foundationFromShape solve lat shape).is_valid.getD j true = false) →
      lat.min_neighbours ≤
        (validNbrCount (foundationFromShape solve lat shape) i : ℤ) := by
  intro i hin hvi hex
  have hspec := trim_edges_valid_spec (foundationPre solve lat shape)
    (foundationPre_valid_length solve lat shape) Hrange Hsym i hin hvi
  rcases hspec with hge | hall
  · exact hge
  · obtain ⟨j, hjmem, hjinv⟩ := hex
    have hjv : (foundationFromShape solve lat shape).is_valid.getD j true = true :=
      hall j hjmem
    rw [hjv] at hjinv
    cases hjinv

/-- C1, witness: the segment shape on the chain lattice with
`min_neighbours = 1`: site 1 survives trimming next to the trimmed-away
site 0 and indeed keeps one valid neighbour. -/
theorem claim1_witness :
    1 < numSitesNat (foundationFromShape idSolve latChain1 shapeSeg) ∧
    (foundationFromShape idSolve latChain1 shapeSeg).is_valid.getD 1 true = true ∧
    latChain1.min_neighbours ≤
      (validNbrCount (foundationFromShape idSolve latChain1 shapeSeg) 1 : ℤ) := by
  refine ⟨by with_unfolding_all decide, by with_unfolding_all decide, ?_⟩
  exact claim1_amended idSolve latChain1 shapeSeg
    (by unfold NbrsRange; with_unfolding_all decide)
    (by unfold NbrsSym; with_unfolding_all decide) 1
    (by with_unfolding_all decide) (by with_unfolding_all decide)
    (by with_unfolding_all decide)

/-! ### Claims C3 and C4: monotonicity, idempotence, order independence -/

/-- Sites valid at the end of one covering run stay valid through any other
covering run whose start state keeps them valid: the first run's final valid
set is trim-stable and trim-stable sets are preserved. -/
theorem trim_run_preserves (n : ℕ) (nbrs : ℕ → List ℕ) (minN : ℤ)
    (Hrange : NbrsRange n nbrs) (Hsym : NbrsSym n nbrs)
    (st0 st0' : St) (ord ord' : List ℕ)
    (hord : ∀ i ∈ ord, i < n) (hcov : ∀ j, j < n → j ∈ ord)
    (hord' : ∀ i ∈ ord', i < n) (hcov' : ∀ j, j < n → j ∈ ord')
    (hlenv : st0.valid.length = n) (hlenc : st0.cnt.length = n)
    (hlenv' : st0'.valid.length = n) (hlenc' : st0'.cnt.length = n)
    (hcnt : ∀ j, j < n → gc st0 j = (degN nbrs j : ℤ))
    (hcnt' : ∀ j, j < n → gc st0' j = (degN nbrs j : ℤ))
    (hsub : ∀ i, i < n → gv (trimOrd nbrs minN ord st0) i = true →
      gv st0' i = true) :
    ∀ i, i < n → gv (trimOrd nbrs minN ord st0) i = true →
      gv (trimOrd nbrs minN ord' st0') i = true := by
  intro i hin hvi
  have hfin := trim_run_core n nbrs minN Hrange Hsym st0 ord hord hcov
    hlenv hlenc hcnt
  have hW := stableW_of_final n nbrs minN Hrange _ hfin
  have hpres := trim_run_W n nbrs minN Hrange Hsym _ hW st0' ord' hord' hcov'
    hlenv' hlenc' hcnt'
    (fun m hWm => by
      simp only [Bool.and_eq_true, decide_eq_true_eq] at hWm
      exact hsub m hWm.1 hWm.2)
  exact hpres i (by simp [hin, hvi])

/-- C4: for every Foundation and every initial validity configuration, the
trimming pass started on freshly computed structural counts reaches the same
final `is_valid` array for every enumeration order of the sites (any
permutation of flat-index order), hence in particular for any order of first
visiting the initially-invalid sites. -/
theorem claim4_order_independence (f : Foundation) (valid0 : List Bool)
    (hlen : valid0.length = numSitesNat f)
    (Hrange : NbrsRange (numSitesNat f) (nbrsF f))
    (Hsym : NbrsSym (numSitesNat f) (nbrsF f))
    (ord1 ord2 : List ℕ)
    (h1 : ord1.Perm (List.range (numSitesNat f)))
    (h2 : ord2.Perm (List.range (numSitesNat f))) :
    (trimOrd (nbrsF f) f.lattice.min_neighbours ord1
      ⟨valid0, count_neighbors f⟩).valid =
    (trimOrd (nbrsF f) f.lattice.min_neighbours ord2
      ⟨valid0, count_neighbors f⟩).valid := by
  have hlenc : (count_neighbors f).length = numSitesNat f := by
    rw [count_neighbors, List.length_map, List.length_range]
  have hord1 : ∀ i ∈ ord1, i < numSitesNat f := fun i hi =>
    List.mem_range.mp (h1.mem_iff.mp hi)
  have hcov1 : ∀ j, j < numSitesNat f → j ∈ ord1 := fun j hj =>
    h1.mem_iff.mpr (List.mem_range.mpr hj)
  have hord2 : ∀ i ∈ ord2, i < numSitesNat f := fun i hi =>
    List.mem_range.mp (h2.mem_iff.mp hi)
  have hcov2 : ∀ j, j < numSitesNat f → j ∈ ord2 := fun j hj =>
    h2.mem_iff.mpr (List.mem_range.mpr hj)
  have hcnt : ∀ j, j < numSitesNat f →
      gc ⟨valid0, count_neighbors f⟩ j = (degN (nbrsF f) j : ℤ) :=
    fun j hj => count_neighbors_eq_deg f j hj
  have hdir1 := trim_run_preserves (numSitesNat f) (nbrsF f)
    f.lattice.min_neighbours Hrange Hsym ⟨valid0, count_neighbors f⟩
    ⟨valid0, count_neighbors f⟩ ord1 ord2 hord1 hcov1 hord2 hcov2
    hlen hlenc hlen hlenc hcnt hcnt
    (fun i _ hvi => trimOrd_mono (nbrsF f) f.lattice.min_neighbours ord1
      ⟨valid0, count_neighbors f⟩ i hvi)
  have hdir2 := trim_run_preserves (numSitesNat f) (nbrsF f)
    f.lattice.min_neighbours Hrange Hsym ⟨valid0, count_neighbors f⟩
    ⟨valid0, count_neighbors f⟩ ord2 ord1 hord2 hcov2 hord1 hcov1
    hlen hlenc hlen hlenc hcnt hcnt
    (fun i _ hvi => trimOrd_mono (nbrsF f) f.lattice.min_neighbours ord2
      ⟨valid0, count_neighbors f⟩ i hvi)
  have hlen1 : (trimOrd (nbrsF f) f.lattice.min_neighbours ord1
      ⟨valid0, count_neighbors f⟩).valid.length = numSitesNat f := by
    rw [(trimOrd_len (nbrsF f) f.lattice.min_neighbours ord1
      ⟨valid0, count_neighbors f⟩).1]
    exact hlen
  have hlen2 : (trimOrd (nbrsF f) f.lattice.min_neighbours ord2
      ⟨valid0, count_neighbors f⟩).valid.length = numSitesNat f := by
    rw [(trimOrd_len (nbrsF f) f.lattice.min_neighbours ord2
      ⟨valid0, count_neighbors f⟩).1]
    exact hlen
  refine List.ext_getElem (by rw [hlen1, hlen2]) (fun k hk1 hk2 => ?_)
  have hkn : k < numSitesNat f := by rw [hlen1] at hk1; exact hk1
  have hgv : gv (trimOrd (nbrsF f) f.lattice.min_neighbours ord1
      ⟨valid0, count_neighbors f⟩) k =
      gv (trimOrd (nbrsF f) f.lattice.min_neighbours ord2
        ⟨valid0, count_neighbors f⟩) k :=
    bool_eq_of_imp _ _ (hdir1 k hkn) (hdir2 k hkn)
  rw [gv, gv, List.getD_eq_getElem _ _ hk1, List.getD_eq_getElem _ _ hk2] at hgv
  exact hgv

/-- C4, witness: on the concrete chain foundation, sweeping in flat-index
order and in reversed order produces the same final validity array. -/
theorem claim4_witness :
    (foundationPre idSolve latChain1 shapeSeg).is_valid.length =
      numSitesNat (foundationPre idSolve latChain1 shapeSeg) ∧
    (trimOrd (nbrsF (foundationPre idSolve latChain1 shapeSeg))
      (foundationPre idSolve latChain1 shapeSeg).lattice.min_neighbours
      (List.range (numSitesNat (foundationPre idSolve latChain1 shapeSeg)))
      ⟨(foundationPre idSolve latChain1 shapeSeg).is_valid,
        count_neighbors (foundationPre idSolve latChain1 shapeSeg)⟩).valid =
    (trimOrd (nbrsF (foundationPre idSolve latChain1 shapeSeg))
      (foundationPre idSolve latChain1 shapeSeg).lattice.min_neighbours
      (List.range (numSitesNat (foundationPre idSolve latChain1 shapeSeg))).reverse
      ⟨(foundationPre idSolve latChain1 shapeSeg).is_valid,
        count_neighbors (foundationPre idSolve latChain1 shapeSeg)⟩).valid := by
  refine ⟨foundationPre_valid_length idSolve latChain1 shapeSeg, ?_⟩
  exact claim4_order_independence (foundationPre idSolve latChain1 shapeSeg)
    (foundationPre idSolve latChain1 shapeSeg).is_valid
    (foundationPre_valid_length idSolve latChain1 shapeSeg)
    (by unfold NbrsRange; with_unfolding_all decide)
    (by unfold NbrsSym; with_unfolding_all decide)
    _ _ (List.Perm.refl _) (List.reverse_perm _)

/-- C3: the trimming pass never flips `is_valid` from false to true (sites
valid afterwards were valid before), the count of valid sites is
non-increasing across every single `clear_neighbors` call and across the
whole pass, and running `trim_edges` a second time leaves the `is_valid`
array — and hence the whole Foundation — unchanged. -/
theorem claim3_trim_monotone_idempotent (f : Foundation)
    (hlen : f.is_valid.length = numSitesNat f)
    (Hrange : NbrsRange (numSitesNat f) (nbrsF f))
    (Hsym : NbrsSym (numSitesNat f) (nbrsF f)) :
    (∀ m, (trim_edges f).is_valid.getD m true = true →
      f.is_valid.getD m true = true) ∧
    (∀ fuel s st, countTrue (clearN (nbrsF f) f.lattice.min_neighbours
      fuel s st).valid ≤ countTrue st.valid) ∧
    countTrue (trim_edges f).is_valid ≤ countTrue f.is_valid ∧
    trim_edges (trim_edges f) = trim_edges f := by
  have hlenc : (count_neighbors f).length = numSitesNat f := by
    rw [count_neighbors, List.length_map, List.length_range]
  have hcnt : ∀ j, j < numSitesNat f →
      gc ⟨f.is_valid, count_neighbors f⟩ j = (degN (nbrsF f) j : ℤ) :=
    fun j hj => count_neighbors_eq_deg f j hj
  refine ⟨?_, ?_, ?_, ?_⟩
  · exact fun m h => trimOrd_mono (nbrsF f) f.lattice.min_neighbours
      (List.range (numSitesNat f)) ⟨f.is_valid, count_neighbors f⟩ m h
  · exact fun fuel s st =>
      numValid_clearN_le (nbrsF f) f.lattice.min_neighbours fuel s st
  · exact numValid_le_of_mono ⟨f.is_valid, count_neighbors f⟩
      (trimOrd (nbrsF f) f.lattice.min_neighbours
        (List.range (numSitesNat f)) ⟨f.is_valid, count_neighbors f⟩)
      (trimOrd_len (nbrsF f) f.lattice.min_neighbours _ _).1
      (trimOrd_mono (nbrsF f) f.lattice.min_neighbours _ _)
  · have hordr : ∀ i ∈ List.range (numSitesNat f), i < numSitesNat f :=
      fun i hi => List.mem_range.mp hi
    have hcovr : ∀ j, j < numSitesNat f → j ∈ List.range (numSitesNat f) :=
      fun j hj => List.mem_range.mpr hj
    have hlenF : (trimOrd (nbrsF f) f.lattice.min_neighbours
        (List.range (numSitesNat f))
        ⟨f.is_valid, count_neighbors f⟩).valid.length = numSitesNat f := by
      rw [(trimOrd_len (nbrsF f) f.lattice.min_neighbours _ _).1]
      exact hlen
    have hcnt1 : ∀ j, j < numSitesNat f →
        gc ⟨(trimOrd (nbrsF f) f.lattice.min_neighbours
          (List.range (numSitesNat f)) ⟨f.is_valid, count_neighbors f⟩).valid,
          count_neighbors f⟩ j = (degN (nbrsF f) j : ℤ) :=
      fun j hj => count_neighbors_eq_deg f j hj
    have hdir1 := trim_run_preserves (numSitesNat f) (nbrsF f)
      f.lattice.min_neighbours Hrange Hsym ⟨f.is_valid, count_neighbors f⟩
      ⟨(trimOrd (nbrsF f) f.lattice.min_neighbours
        (List.range (numSitesNat f)) ⟨f.is_valid, count_neighbors f⟩).valid,
        count_neighbors f⟩
      (List.range (numSitesNat f)) (List.range (numSitesNat f))
      hordr hcovr hordr hcovr hlen hlenc hlenF hlenc hcnt hcnt1
      (fun _ _ hvi => hvi)
    have hdir2 : ∀ i, i < numSitesNat f →
        gv (trimOrd (nbrsF f) f.lattice.min_neighbours
          (List.range (numSitesNat f))
          ⟨(trimOrd (nbrsF f) f.lattice.min_neighbours
            (List.range (numSitesNat f))
            ⟨f.is_valid, count_neighbors f⟩).valid, count_neighbors f⟩) i =
          true →
        gv (trimOrd (nbrsF f) f.lattice.min_neighbours
          (List.range (numSitesNat f))
          ⟨f.is_valid, count_neighbors f⟩) i = true :=
      fun i _ hvi => trimOrd_mono (nbrsF f) f.lattice.min_neighbours
        (List.range (numSitesNat f))
        ⟨(trimOrd (nbrsF f) f.lattice.min_neighbours
          (List.range (numSitesNat f))
          ⟨f.is_valid, count_neighbors f⟩).valid, count_neighbors f⟩ i hvi
    have hlenFF : (trimOrd (nbrsF f) f.lattice.min_neighbours
        (List.range (numSitesNat f))
        ⟨(trimOrd (nbrsF f) f.lattice.min_neighbours
          (List.range (numSitesNat f))
          ⟨f.is_valid, count_neighbors f⟩).valid,
          count_neighbors f⟩).valid.length = numSitesNat f := by
      rw [(trimOrd_len (nbrsF f) f.lattice.min_neighbours _ _).1]
      exact hlenF
    have hval : (trimOrd (nbrsF f) f.lattice.min_neighbours
        (List.range (numSitesNat f))
        ⟨(trimOrd (nbrsF f) f.lattice.min_neighbours
          (List.range (numSitesNat f))
          ⟨f.is_valid, count_neighbors f⟩).valid, count_neighbors f⟩).valid =
        (trimOrd (nbrsF f) f.lattice.min_neighbours
          (List.range (numSitesNat f))
          ⟨f.is_valid, count_neighbors f⟩).valid := by
      refine List.ext_getElem (by rw [hlenFF, hlenF]) (fun k hk1 hk2 => ?_)
      have hkn : k < numSitesNat f := by rw [hlenFF] at hk1; exact hk1
      have hgv := bool_eq_of_imp _ _ (hdir2 k hkn) (hdir1 k hkn)
      rw [gv, gv, List.getD_eq_getElem _ _ hk1,
        List.getD_eq_getElem _ _ hk2] at hgv
      exact hgv
    calc trim_edges (trim_edges f)
        = { trim_edges f with
            is_valid := (trim_edges (trim_edges f)).is_valid } := rfl
      _ = { trim_edges f with is_valid := (trim_edges f).is_valid } := by
          have hval' : (trim_edges (trim_edges f)).is_valid =
              (trim_edges f).is_valid := hval
          rw [hval']
      _ = trim_edges f := rfl

/-- C3, witness: the chain foundation satisfies the hypotheses, the pass
shrinks the valid set from the initial configuration, and a second pass
changes nothing. -/
theorem claim3_witness :
    (foundationPre idSolve latChain1 shapeSeg).is_valid.length =
      numSitesNat (foundationPre idSolve latChain1 shapeSeg) ∧
    trim_edges (trim_edges (foundationPre idSolve latChain1 shapeSeg)) =
      trim_edges (foundationPre idSolve latChain1 shapeSeg) := by
  refine ⟨foundationPre_valid_length idSolve latChain1 shapeSeg, ?_⟩
  exact (claim3_trim_monotone_idempotent
    (foundationPre idSolve latChain1 shapeSeg)
    (foundationPre_valid_length idSolve latChain1 shapeSeg)
    (by unfold NbrsRange; with_unfolding_all decide)
    (by unfold NbrsSym; with_unfolding_all decide)).2.2.2

end Tbm
